import Mathlib

/-!
Verification development for the agentsmith-cli core: the registry
build/search engine (src/src/hooks/index.ts, class Registry) and the
analysis-response normalizer (src/unnamed/part_008, Analyzer.flattenAgents
and Analyzer.normalizeTools).

Modelling conventions (shallow embedding of the TypeScript source):
- JSON-compatible runtime values are the inductive type `Json`.  JavaScript's
  `undefined` is represented as `Option Json` (`none` = undefined) where a
  field access can miss.  A thrown TypeError is represented by an `Option`
  result at the operation level (`none` = the operation throws).
- The registry file's text is modelled as a Lean `String` (its character
  list); a missing or unreadable file is `none : Option String`.
- `JSON.stringify` / `JSON.parse` (JS builtins) are implemented as real
  functions on the character list (`stringify`, `jsonParse` below); numbers
  are modelled as integers.  JS `String(...)` coercion is `jsToStr`,
  truthiness is `jsTruthy`, lowercasing is the ASCII `strToLower` below.
- `Array.prototype.sort` with comparator `(a, b) => b.score - a.score` is a
  stable descending sort; it is modelled by the stable insertion sort
  `sortScored` below (ECMAScript requires sort to be stable).
All definitions are executable; no partial functions are used.
-/

/-- A JSON-compatible JavaScript runtime value (numbers restricted to
integers, which is all the modelled code produces). -/
inductive Json where
  | null : Json
  | bool (b : Bool) : Json
  | num (n : Int) : Json
  | str (s : String) : Json
  | arr (elems : List Json) : Json
  | obj (fields : List (String × Json)) : Json

mutual
/-- Boolean equality on `Json` (hand-rolled: automatic deriving does not
handle this nested inductive). -/
def beqJson : Json → Json → Bool
  | .null, .null => true
  | .bool a, .bool b => a == b
  | .num a, .num b => a == b
  | .str a, .str b => a == b
  | .arr a, .arr b => beqJsonList a b
  | .obj a, .obj b => beqJsonFields a b
  | _, _ => false

/-- Boolean equality on lists of `Json`. -/
def beqJsonList : List Json → List Json → Bool
  | [], [] => true
  | a :: as, b :: bs => beqJson a b && beqJsonList as bs
  | _, _ => false

/-- Boolean equality on JSON object field lists. -/
def beqJsonFields : List (String × Json) → List (String × Json) → Bool
  | [], [] => true
  | (k, v) :: as, (k', v') :: bs => k == k' && beqJson v v' && beqJsonFields as bs
  | _, _ => false
end

mutual
theorem beqJson_iff : ∀ a b : Json, beqJson a b = true ↔ a = b
  | .null, b => by cases b <;> simp [beqJson]
  | .bool a, b => by cases b <;> simp [beqJson]
  | .num a, b => by cases b <;> simp [beqJson]
  | .str a, b => by cases b <;> simp [beqJson]
  | .arr a, b => by
      cases b <;> simp [beqJson]
      exact beqJsonList_iff a _
  | .obj a, b => by
      cases b <;> simp [beqJson]
      exact beqJsonFields_iff a _

theorem beqJsonList_iff : ∀ a b : List Json, beqJsonList a b = true ↔ a = b
  | [], b => by cases b <;> simp [beqJsonList]
  | x :: xs, b => by
      cases b with
      | nil => simp [beqJsonList]
      | cons y ys =>
          simp [beqJsonList, Bool.and_eq_true, beqJson_iff x y, beqJsonList_iff xs ys]

theorem beqJsonFields_iff : ∀ a b : List (String × Json), beqJsonFields a b = true ↔ a = b
  | [], b => by cases b <;> simp [beqJsonFields]
  | (k, v) :: xs, b => by
      cases b with
      | nil => simp [beqJsonFields]
      | cons y ys =>
          obtain ⟨k', v'⟩ := y
          simp [beqJsonFields, Bool.and_eq_true, beqJson_iff v v', beqJsonFields_iff xs ys,
            and_assoc]
end

instance : DecidableEq Json := fun a b => decidable_of_iff _ (beqJson_iff a b)

/-- JavaScript truthiness of a JSON value (`Boolean(v)`). -/
def jsTruthy : Json → Bool
  | .null => false
  | .bool b => b
  | .num n => n != 0
  | .str s => s != ""
  | .arr _ => true
  | .obj _ => true

/-- Truthiness of a possibly-undefined value (`undefined` is falsy). -/
def jsTruthyU : Option Json → Bool
  | none => false
  | some j => jsTruthy j

mutual
/-- JavaScript `String(v)` coercion of a JSON value. -/
def jsToStr : Json → String
  | .null => "null"
  | .bool true => "true"
  | .bool false => "false"
  | .num n => toString n
  | .str s => s
  | .arr xs => jsToStrElems xs
  | .obj _ => "[object Object]"

/-- `Array.prototype.toString`: elements joined by commas, `null` elements
rendered as the empty string. -/
def jsToStrElems : List Json → String
  | [] => ""
  | [x] => jsToStrElem x
  | x :: xs => jsToStrElem x ++ "," ++ jsToStrElems xs

/-- One array element inside `Array.prototype.toString`. -/
def jsToStrElem : Json → String
  | .null => ""
  | j => jsToStr j
end

/-- JavaScript property read `v[k]`: `none` models a thrown TypeError
(reading a property of `null`); `some none` models `undefined`; property
lookup on non-objects yields `undefined`. -/
def jsGetE (v : Json) (k : String) : Option (Option Json) :=
  match v with
  | .null => none
  | .obj kvs => some (kvs.lookup k)
  | _ => some none

/-- Property read on a value known not to be `null` (total): used where the
source has already guarded against `null`. -/
def jsGet (v : Json) (k : String) : Option Json :=
  match v with
  | .obj kvs => kvs.lookup k
  | _ => none

/-- JavaScript `"k" in v` for an object value. -/
def jsHasKey (v : Json) (k : String) : Bool :=
  match v with
  | .obj kvs => (kvs.lookup k).isSome
  | _ => false

/-- ASCII lowercasing of a string (the model of `toLowerCase`). -/
def strToLower (s : String) : String :=
  String.mk (s.data.map Char.toLower)

/-- JavaScript `v.toLowerCase()` on a possibly-undefined value: throws
(`none`) unless the value is a string. -/
def toLowerE : Option Json → Option String
  | some (.str s) => some (strToLower s)
  | _ => none

/-- JavaScript `for (const x of v)` iteration: arrays iterate their
elements, strings iterate their one-character substrings, every other value
throws a TypeError (`none`). -/
def jsIterE : Option Json → Option (List Json)
  | some (.arr xs) => some xs
  | some (.str s) => some (s.data.map fun c => Json.str (String.mk [c]))
  | _ => none

/-- Boolean test for a segment occurring at the start of a character list. -/
def startsSeg : List Char → List Char → Bool
  | [], _ => true
  | _ :: _, [] => false
  | p :: ps, c :: cs => p == c && startsSeg ps cs

/-- Boolean substring test on character lists (`hasSeg needle hay`). -/
def hasSeg (needle : List Char) : List Char → Bool
  | [] => startsSeg needle []
  | c :: cs => startsSeg needle (c :: cs) || hasSeg needle cs

/-- JavaScript `hay.includes(needle)` on strings. -/
def strContainsB (hay needle : String) : Bool :=
  hasSeg needle.data hay.data

example : strContainsB "oauth-flow" "auth" = true := by decide
example : strContainsB "auth" "" = true := by decide
example : strContainsB "" "" = true := by decide
example : strContainsB "ap" "api" = false := by decide

/-- Hexadecimal digit character for a value below 16 (lowercase, as emitted
by JavaScript's JSON.stringify unicode escapes). -/
def hexChar (k : Nat) : Char :=
  if k < 10 then Char.ofNat ('0'.toNat + k) else Char.ofNat ('a'.toNat + (k - 10))

/-- Value of a hexadecimal digit character, if it is one. -/
def hexVal (c : Char) : Option Nat :=
  if '0' ≤ c ∧ c ≤ '9' then some (c.toNat - '0'.toNat)
  else if 'a' ≤ c ∧ c ≤ 'f' then some (c.toNat - 'a'.toNat + 10)
  else if 'A' ≤ c ∧ c ≤ 'F' then some (c.toNat - 'A'.toNat + 10)
  else none

/-- JSON string escaping of one character, as JSON.stringify performs it:
quote, backslash and the five named control characters get two-character
escapes, other control characters get a unicode escape, everything else is
emitted verbatim. -/
def escChar (c : Char) : List Char :=
  if c = '"' then ['\\', '"']
  else if c = '\\' then ['\\', '\\']
  else if c = '\n' then ['\\', 'n']
  else if c = '\r' then ['\\', 'r']
  else if c = '\t' then ['\\', 't']
  else if c = '\x08' then ['\\', 'b']
  else if c = '\x0c' then ['\\', 'f']
  else if c.toNat < 32 then ['\\', 'u', '0', '0', hexChar (c.toNat / 16), hexChar (c.toNat % 16)]
  else [c]

/-- JSON string escaping of a character list. -/
def escList (cs : List Char) : List Char :=
  (cs.map escChar).flatten

mutual
/-- JSON.stringify of a value, as a character list (no added whitespace,
object keys in field order — exactly what the Node runtime emits for the
values the registry writes). -/
def stringify : Json → List Char
  | .null => 'n' :: ['u', 'l', 'l']
  | .bool true => 't' :: ['r', 'u', 'e']
  | .bool false => 'f' :: ['a', 'l', 's', 'e']
  | .num n => (toString n).data
  | .str s => '"' :: (escList s.data ++ ['"'])
  | .arr xs => '[' :: (strElems xs ++ [']'])
  | .obj kvs => '\x7b' :: (strMembers kvs ++ ['\x7d'])

/-- Comma-separated stringified array elements. -/
def strElems : List Json → List Char
  | [] => []
  | [x] => stringify x
  | x :: xs => stringify x ++ ',' :: strElems xs

/-- Comma-separated stringified object members. -/
def strMembers : List (String × Json) → List Char
  | [] => []
  | [(k, v)] => '"' :: (escList k.data ++ '"' :: ':' :: stringify v)
  | (k, v) :: kvs => ('"' :: (escList k.data ++ '"' :: ':' :: stringify v)) ++ ',' :: strMembers kvs
end

example : String.mk (stringify (Json.str "a\"b")) = "\"a\\\"b\"" := by decide
example : String.mk (stringify (Json.arr [Json.null, Json.num (-2), Json.bool true])) = "[null,-2,true]" := by decide
example : String.mk (stringify (Json.obj [("a", Json.str "x"), ("b", Json.arr [])])) = "\x7b\"a\":\"x\",\"b\":[]\x7d" := by decide

/-- JSON whitespace characters (space, tab, newline, carriage return). -/
def isWsChar (c : Char) : Bool :=
  c = ' ' || c = '\t' || c = '\n' || c = '\r'

/-- Drop leading JSON whitespace. -/
def skipWs (cs : List Char) : List Char :=
  cs.dropWhile isWsChar

/-- Parse the body of a JSON string literal (after the opening quote) up to
its closing quote, decoding escapes; returns the decoded characters and the
remaining input. -/
def parseStrB : List Char → Option (List Char × List Char)
  | [] => none
  | c :: rest =>
    if c = '"' then some ([], rest)
    else if c = '\\' then
      match rest with
      | [] => none
      | e :: rest' =>
        if e = '"' then (parseStrB rest').map (fun p => ('"' :: p.1, p.2))
        else if e = '\\' then (parseStrB rest').map (fun p => ('\\' :: p.1, p.2))
        else if e = '/' then (parseStrB rest').map (fun p => ('/' :: p.1, p.2))
        else if e = 'n' then (parseStrB rest').map (fun p => ('\n' :: p.1, p.2))
        else if e = 'r' then (parseStrB rest').map (fun p => ('\r' :: p.1, p.2))
        else if e = 't' then (parseStrB rest').map (fun p => ('\t' :: p.1, p.2))
        else if e = 'b' then (parseStrB rest').map (fun p => ('\x08' :: p.1, p.2))
        else if e = 'f' then (parseStrB rest').map (fun p => ('\x0c' :: p.1, p.2))
        else if e = 'u' then
          match rest' with
          | h1 :: h2 :: h3 :: h4 :: rest2 =>
            match hexVal h1, hexVal h2, hexVal h3, hexVal h4 with
            | some a, some b, some c2, some d =>
              (parseStrB rest2).map (fun p => (Char.ofNat (((a * 16 + b) * 16 + c2) * 16 + d) :: p.1, p.2))
            | _, _, _, _ => none
          | _ => none
        else none
    else (parseStrB rest).map (fun p => (c :: p.1, p.2))

/-- Value of a decimal digit character, if it is one. -/
def digitVal (c : Char) : Option Nat :=
  if '0' ≤ c ∧ c ≤ '9' then some (c.toNat - '0'.toNat) else none

/-- Consume a run of decimal digits, accumulating their value. -/
def parseDigits (acc : Nat) : List Char → Nat × List Char
  | [] => (acc, [])
  | c :: rest =>
    match digitVal c with
    | some d => parseDigits (acc * 10 + d) rest
    | none => (acc, c :: rest)

mutual
/-- Fuel-bounded JSON value parser (the model of the JSON.parse builtin;
numbers are restricted to optionally-signed integer literals, which covers
everything the registry ever writes). -/
def parseJ : Nat → List Char → Option (Json × List Char)
  | 0, _ => none
  | fuel + 1, cs =>
    match skipWs cs with
    | [] => none
    | c :: rest =>
      if c = '\x7b' then
        match skipWs rest with
        | d :: rest' => if d = '\x7d' then some (.obj [], rest') else parseMembers fuel rest []
        | [] => none
      else if c = '[' then
        match skipWs rest with
        | d :: rest' => if d = ']' then some (.arr [], rest') else parseElems fuel rest []
        | [] => none
      else if c = '"' then (parseStrB rest).map (fun p => (.str (String.mk p.1), p.2))
      else if c = 't' then
        if startsSeg ['r', 'u', 'e'] rest then some (.bool true, rest.drop 3) else none
      else if c = 'f' then
        if startsSeg ['a', 'l', 's', 'e'] rest then some (.bool false, rest.drop 4) else none
      else if c = 'n' then
        if startsSeg ['u', 'l', 'l'] rest then some (.null, rest.drop 3) else none
      else if c = '-' then
        match rest with
        | d :: rest' =>
          match digitVal d with
          | some v => let p := parseDigits v rest'; some (.num (-(Int.ofNat p.1)), p.2)
          | none => none
        | [] => none
      else
        match digitVal c with
        | some v => let p := parseDigits v rest; some (.num (Int.ofNat p.1), p.2)
        | none => none

/-- Parse the remaining elements of a (nonempty) JSON array. -/
def parseElems : Nat → List Char → List Json → Option (Json × List Char)
  | 0, _, _ => none
  | fuel + 1, cs, acc =>
    match parseJ fuel cs with
    | some (v, rest) =>
      match skipWs rest with
      | d :: rest' =>
        if d = ',' then parseElems fuel rest' (acc ++ [v])
        else if d = ']' then some (.arr (acc ++ [v]), rest')
        else none
      | [] => none
    | none => none

/-- Parse the remaining members of a (nonempty) JSON object. -/
def parseMembers : Nat → List Char → List (String × Json) → Option (Json × List Char)
  | 0, _, _ => none
  | fuel + 1, cs, acc =>
    match skipWs cs with
    | d :: rest =>
      if d = '"' then
        match parseStrB rest with
        | some (k, rest') =>
          match skipWs rest' with
          | e :: rest'' =>
            if e = ':' then
              match parseJ fuel rest'' with
              | some (v, rest3) =>
                match skipWs rest3 with
                | g :: rest4 =>
                  if g = ',' then parseMembers fuel rest4 (acc ++ [(String.mk k, v)])
                  else if g = '\x7d' then some (.obj (acc ++ [(String.mk k, v)]), rest4)
                  else none
                | [] => none
              | none => none
            else none
          | [] => none
        | none => none
      else none
    | [] => none
end

/-- The model of `JSON.parse(line)`: parse one JSON value and require that
only whitespace follows; `none` models a thrown SyntaxError. -/
def jsonParse (cs : List Char) : Option Json :=
  match parseJ (cs.length + 1) cs with
  | some (j, rest) => if skipWs rest = [] then some j else none
  | none => none

example : jsonParse "null".data = some Json.null := by decide
example : jsonParse "[1,\"a\",true]".data = some (Json.arr [Json.num 1, Json.str "a", Json.bool true]) := by decide
example : jsonParse "\x7b\"a\":-3,\"b\":[]\x7d".data = some (Json.obj [("a", Json.num (-3)), ("b", Json.arr [])]) := by decide
example : jsonParse "\x7b".data = none := by decide
example : jsonParse "nul".data = none := by decide

/-- JavaScript `content.trim()` (whitespace here: space, tab, CR, LF — the
characters relevant to the newline-delimited registry format). -/
def trimChars (cs : List Char) : List Char :=
  ((cs.dropWhile isWsChar).reverse.dropWhile isWsChar).reverse

/-- JavaScript `s.split("\n")` on a character list. -/
def splitNl : List Char → List (List Char)
  | [] => [[]]
  | c :: rest =>
    if c = '\n' then [] :: splitNl rest
    else
      match splitNl rest with
      | l :: ls => (c :: l) :: ls
      | [] => [[c]]

/-- The registry read framing `content.trim().split("\n").filter(Boolean)`. -/
def readLines (content : String) : List (List Char) :=
  (splitNl (trimChars content.data)).filter (fun l => !l.isEmpty)

/-- `lines.map(line => JSON.parse(line))`: `none` models the throw at the
first malformed line (which the callers catch wholesale). -/
def parseAllLines (content : String) : Option (List Json) :=
  (readLines content).mapM jsonParse

/-- The registry write framing
`entries.map(e => JSON.stringify(e)).join("\n") + "\n"`. -/
def joinNl : List (List Char) → List Char
  | [] => []
  | [x] => x
  | x :: xs => x ++ '\n' :: joinNl xs

/-- Newline-delimited serialization of a list of JSON line values. -/
def renderLines (ls : List Json) : List Char :=
  joinNl (ls.map stringify) ++ ['\n']

/-- SkillDefinition (src/unnamed/part_008). -/
structure SkillDefinition where
  name : String
  description : String
  sourceDir : String
  patterns : List String
  triggers : List String
  category : String
  examples : List String
deriving DecidableEq

/-- ToolDefinition (src/unnamed/part_008). -/
structure ToolDefinition where
  name : String
  command : String
  description : String
deriving DecidableEq

/-- AgentDefinition (src/unnamed/part_008), per its TypeScript interface:
the input record type of Registry.build. -/
structure AgentDefinition where
  name : String
  description : String
  skills : List String
  tools : List ToolDefinition
  isSubAgent : Bool
  parentAgent : Option String
  subAgents : Option (List String)
  triggers : List String
  sourceDir : Option String
deriving DecidableEq

/-- RegistryEntry (src/src/hooks/index.ts): the denormalized projection both
record kinds are stored and searched as. -/
structure RegistryEntry where
  type : String
  name : String
  file : String
  description : String
  category : Option String
  triggers : List String
  isSubAgent : Option Bool
  parentAgent : Option String
  subAgents : Option (List String)
deriving DecidableEq

/-- A JSON object field that is omitted when the JS value is `undefined`
(JSON.stringify drops undefined-valued keys). -/
def optField (k : String) (v : Option Json) : List (String × Json) :=
  match v with
  | some j => [(k, j)]
  | none => []

/-- The JSON object a RegistryEntry is serialized as, keys in the insertion
order of the object literals in `Registry.build` (for skills:
type, name, file, description, category, triggers; for agents: category is
absent and the agent keys follow triggers — the single field order below
matches both literals since a skill entry has none of the agent-only keys
and an agent entry has no category). -/
def RegistryEntry.toJson (e : RegistryEntry) : Json :=
  .obj ([("type", .str e.type), ("name", .str e.name), ("file", .str e.file),
         ("description", .str e.description)]
    ++ optField "category" (e.category.map .str)
    ++ [("triggers", .arr (e.triggers.map .str))]
    ++ optField "isSubAgent" (e.isSubAgent.map .bool)
    ++ optField "parentAgent" (e.parentAgent.map .str)
    ++ optField "subAgents" (e.subAgents.map fun l => .arr (l.map .str)))

/-- The skill entry pushed by `Registry.build`. -/
def skillEntry (s : SkillDefinition) : RegistryEntry :=
  { type := "skill"
    name := s.name
    file := ".github/skills/" ++ s.name ++ "/SKILL.md"
    description := s.description
    category := some s.category
    triggers := s.triggers
    isSubAgent := none
    parentAgent := none
    subAgents := none }

/-- The agent entry pushed by `Registry.build`. -/
def agentEntry (a : AgentDefinition) : RegistryEntry :=
  { type := "agent"
    name := a.name
    file := ".github/agents/" ++ a.name ++ "/agent.yaml"
    description := a.description
    category := none
    triggers := a.triggers
    isSubAgent := some a.isSubAgent
    parentAgent := a.parentAgent
    subAgents := a.subAgents }

/-- The full entry sequence `Registry.build` assembles: all skills first,
then all agents (if the agents argument was passed), each in input order. -/
def registryEntries (skills : List SkillDefinition)
    (agents : Option (List AgentDefinition)) : List RegistryEntry :=
  skills.map skillEntry ++
    (match agents with
     | some ags => ags.map agentEntry
     | none => [])

/-- Registry.build as a transformer of the registry file state: computes the
newline-delimited content and overwrites the file, unless dryRun is set, in
which case the file is left untouched. -/
def Registry.build (dryRun : Bool) (skills : List SkillDefinition)
    (agents : Option (List AgentDefinition)) (prev : Option String) : Option String :=
  let entries := registryEntries skills agents
  let content := String.mk (renderLines (entries.map RegistryEntry.toJson))
  if dryRun then prev else some content

/-- Registry.list: read and parse every line; any read or parse failure is
caught and yields the empty list. -/
def Registry.list (file : Option String) : List Json :=
  match file with
  | none => []
  | some content => (parseAllLines content).getD []

/-- The body of `entries.filter((e) => e.type === typeFilter)` (run only
when the filter string is truthy); a `null` entry makes the property access
throw (`none`). -/
def typeFilterE (tf : String) : List Json → Option (List Json)
  | [] => some []
  | e :: rest => do
    let t ← jsGetE e "type"
    let r ← typeFilterE tf rest
    if t = some (Json.str tf) then pure (e :: r) else pure r

/-- The two trigger checks of the scoring loop, summed over all triggers:
`+20` for each trigger containing the query, a further `+40` for each
trigger exactly equal to it; throws if a trigger is not a string. -/
def trigScoreE (qL : String) : List Json → Option Nat
  | [] => some 0
  | t :: rest => do
    let tl ← toLowerE (some t)
    let r ← trigScoreE qL rest
    pure ((if strContainsB tl qL then 20 else 0) + (if tl = qL then 40 else 0) + r)

/-- The per-entry relevance score of `Registry.search`, duck-typed exactly as
the source computes it (`none` models a TypeError on a malformed entry,
which the surrounding try/catch converts into an empty result). -/
def scoreEntryE (qL : String) (e : Json) : Option Nat := do
  let nameL ← toLowerE (← jsGetE e "name")
  let s1 := if nameL = qL then 100 else 0
  let s2 := if strContainsB nameL qL then 50 else 0
  let descL ← toLowerE (← jsGetE e "description")
  let s3 := if strContainsB descL qL then 30 else 0
  let trigs ← jsIterE (← jsGetE e "triggers")
  let s4 ← trigScoreE qL trigs
  let cat ← jsGetE e "category"
  let s5 ← (match cat with
    | none => some 0
    | some Json.null => some 0
    | some (Json.str c) => some (if strContainsB (strToLower c) qL then 10 else 0)
    | some _ => none)
  let ty ← jsGetE e "type"
  let sub ← jsGetE e "isSubAgent"
  let s6 := if ty = some (Json.str "agent") && !(jsTruthyU sub) then 5 else 0
  pure (s1 + s2 + s3 + s4 + s5 + s6)

/-- Score every entry (`entries.map((entry) => ... score ...)`). -/
def scoreAllE (qL : String) : List Json → Option (List (Json × Nat))
  | [] => some []
  | e :: rest => do
    let s ← scoreEntryE qL e
    let r ← scoreAllE qL rest
    pure ((e, s) :: r)

/-- Stable insertion step for the descending-by-score sort: an element is
placed before the first already-placed element whose score is not larger. -/
def insScored {α : Type} (x : α × Nat) : List (α × Nat) → List (α × Nat)
  | [] => [x]
  | y :: ys => if y.2 ≤ x.2 then x :: y :: ys else y :: insScored x ys

/-- The model of `.sort((a, b) => b.score - a.score)`: a stable descending
sort by score (ECMAScript guarantees Array.prototype.sort is stable). -/
def sortScored {α : Type} : List (α × Nat) → List (α × Nat)
  | [] => []
  | x :: xs => insScored x (sortScored xs)

/-- Registry.search: read, parse, optionally type-filter, score, drop
zero-score entries, stable-sort descending, truncate to the limit (default
10), and return the entries; every throw inside the try block yields []. -/
def Registry.search (file : Option String) (query : String)
    (otype : Option String) (olimit : Option Nat) : List Json :=
  let limit := olimit.getD 10
  match file with
  | none => []
  | some content =>
    let attempt : Option (List (Json × Nat)) := do
      let entries ← parseAllLines content
      let entries' ← (match otype with
        | some tf => if tf = "" then pure entries else typeFilterE tf entries
        | none => pure entries)
      scoreAllE (strToLower query) entries'
    match attempt with
    | none => []
    | some scored =>
      ((sortScored (scored.filter (fun s => 0 < s.2))).take limit).map Prod.fst

/-- The linear scan of `Registry.get`: `entries.find((e) => e.name === name)
|| null`; outer `none` models the (uncaught) throw on a `null` entry. -/
def findEntryE (name : String) : List Json → Option (Option Json)
  | [] => some none
  | e :: rest => do
    let n ← jsGetE e "name"
    if n = some (Json.str name) then pure (some e) else findEntryE name rest

/-- Registry.get: a linear scan over `list()` for the first exact name
match, with `null` (modelled `some none`) when nothing matches. -/
def Registry.get (file : Option String) (name : String) : Option (Option Json) :=
  findEntryE name (Registry.list file)

/-- The trigger-loop contribution on a well-typed entry (20 per containing
trigger plus 40 per exactly-equal trigger). -/
def scoreTriggersT (qL : String) : List String → Nat
  | [] => 0
  | t :: rest =>
    (if strContainsB (strToLower t) qL then 20 else 0) +
      (if (strToLower t) = qL then 40 else 0) + scoreTriggersT qL rest

/-- The search score of a well-typed RegistryEntry (the value `scoreEntryE`
computes on its serialized form). -/
def scoreEntryT (qL : String) (e : RegistryEntry) : Nat :=
  (if (strToLower e.name) = qL then 100 else 0) +
    (if strContainsB (strToLower e.name) qL then 50 else 0) +
    (if strContainsB (strToLower e.description) qL then 30 else 0) +
    scoreTriggersT qL e.triggers +
    (match e.category with
     | some c => if strContainsB (strToLower c) qL then 10 else 0
     | none => 0) +
    (if e.type = "agent" && !(e.isSubAgent.getD false) then 5 else 0)

/-- The type filter on well-typed entries (`if (typeFilter)` skips the
filter when the requested type is absent or the falsy empty string). -/
def typeFilterT (otype : Option String) (es : List RegistryEntry) : List RegistryEntry :=
  match otype with
  | some tf => if tf = "" then es else es.filter (fun e => e.type = tf)
  | none => es

/-- The search pipeline on well-typed entries: type-filter, score, keep
strictly positive scores, stable-sort descending, truncate, unproject. -/
def searchPure (query : String) (otype : Option String) (olimit : Option Nat)
    (es : List RegistryEntry) : List RegistryEntry :=
  let qL := (strToLower query)
  let scored := (typeFilterT otype es).map fun e => (e, scoreEntryT qL e)
  ((sortScored (scored.filter fun s => 0 < s.2)).take (olimit.getD 10)).map Prod.fst

/-- The kept sublist: type-filtered entries with strictly positive score, in
file order. -/
def keptEntries (query : String) (otype : Option String)
    (es : List RegistryEntry) : List (RegistryEntry × Nat) :=
  ((typeFilterT otype es).map fun e => (e, scoreEntryT (strToLower query) e)).filter fun s => 0 < s.2

/-- Is a raw value a candidate record
(`rawAgent && typeof rawAgent === "object"` — arrays included, since JS
`typeof` calls them objects too)? -/
def isObjLike : Json → Bool
  | .obj _ => true
  | .arr _ => true
  | _ => false

/-- The raw `subAgents` array of a node (empty unless the field holds an
array, per the `Array.isArray` guard). -/
def subsArr (a : Json) : List Json :=
  match jsGet a "subAgents" with
  | some (.arr xs) => xs
  | _ => []

/-- Is a `subAgents` element a nested agent object
(`typeof subAgent === "object" && subAgent !== null && "name" in subAgent`)?
A JSON array can never carry a `"name"` property, so only objects qualify. -/
def isNestedAgent : Json → Bool
  | .obj kvs => (kvs.lookup "name").isSome
  | _ => false

/-- The value pushed into `subAgentNames` for one `subAgents` element: the
raw `name` value of a nested object (no coercion in the source), the string
itself for a string element, nothing otherwise. -/
def subRefName : Json → Option Json
  | .obj kvs => kvs.lookup "name"
  | .str t => some (.str t)
  | _ => none

/-- `String(v || dflt)` for a possibly-undefined field with a string
default: the coercion used for `name` (default "unknown") and `description`
(default ""). -/
def coerceOr (v : Option Json) (dflt : String) : String :=
  match v with
  | some j => if jsTruthy j then jsToStr j else dflt
  | none => dflt

/-- `v ? String(v) : undefined` for the optional fields `parentAgent` and
`sourceDir`. -/
def coerceOpt (v : Option Json) : Option String :=
  match v with
  | some j => if jsTruthy j then some (jsToStr j) else none
  | none => none

/-- `Array.isArray(v) ? v.map(x => String(x)) : []` for `skills` and
`triggers`. -/
def coerceStrList (v : Option Json) : List String :=
  match v with
  | some (.arr xs) => xs.map jsToStr
  | _ => []

/-- JavaScript `a || b` on possibly-undefined values. -/
def jsOrU (a b : Option Json) : Option Json :=
  if jsTruthyU a then a else b

/-- Analyzer.normalizeTools on one element: a bare string splits on the
first space for the synthetic name; an object (or array) coerces its fields
with fail-soft defaults; anything else is stringified wholesale. -/
def normalizeTool (tool : Json) : ToolDefinition :=
  match tool with
  | .str s =>
    { name := String.mk (s.data.takeWhile fun c => c != ' ')
      command := s
      description := s }
  | .obj kvs =>
    { name := coerceOr (kvs.lookup "name") "unknown"
      command := jsToStr ((jsOrU (kvs.lookup "command") (jsOrU (kvs.lookup "name") (some (.str "")))).getD (.str ""))
      description := jsToStr ((jsOrU (kvs.lookup "description") (jsOrU (kvs.lookup "name") (some (.str "")))).getD (.str "")) }
  | .arr _ =>
    { name := "unknown", command := "", description := "" }
  | t => { name := "unknown", command := jsToStr t, description := jsToStr t }

/-- Analyzer.normalizeTools: `[]` unless the field holds an array, else one
normalized tool per element. -/
def normalizeTools (tools : Option Json) : List ToolDefinition :=
  match tools with
  | some (.arr xs) => xs.map normalizeTool
  | _ => []

/-- The record type produced by Analyzer.flattenAgents.  The TypeScript
return type is AgentDefinition[], but the implementation pushes the raw
`name` values of nested sub-agent objects into `subAgents` without
coercion (`subAgentNames.push(nestedAgent.name as string)`), so the model
keeps those raw JSON values; every other field is genuinely coerced. -/
structure NormalizedAgent where
  name : String
  description : String
  skills : List String
  tools : List ToolDefinition
  isSubAgent : Bool
  parentAgent : Option String
  subAgents : Option (List Json)
  triggers : List String
  sourceDir : Option String
deriving DecidableEq

/-- One normalized record as built in Analyzer.flattenAgents.  `ov = some p`
models a nested object the parent loop has already mutated
(`isSubAgent = true`; `parentAgent =` the parent's raw `name` value `p`,
which may be `none` = undefined); `names` is the `subAgentNames` list
collected from this node's own `subAgents`. -/
def normalizeAgent (ov : Option (Option Json)) (names : List Json) (a : Json) : NormalizedAgent :=
  { name := coerceOr (jsGet a "name") "unknown"
    description := coerceOr (jsGet a "description") ""
    skills := coerceStrList (jsGet a "skills")
    tools := normalizeTools (jsGet a "tools")
    isSubAgent :=
      match ov with
      | some _ => true
      | none => jsTruthyU (jsGet a "isSubAgent")
    parentAgent :=
      match ov with
      | some p => coerceOpt p
      | none => coerceOpt (jsGet a "parentAgent")
    subAgents := if names.isEmpty then none else some names
    triggers := coerceStrList (jsGet a "triggers")
    sourceDir := coerceOpt (jsGet a "sourceDir") }

theorem sizeOf_filter_le {α : Type} [SizeOf α] (p : α → Bool) (l : List α) :
    sizeOf (l.filter p) ≤ sizeOf l := by
  induction l with
  | nil => simp
  | cons x xs ih =>
      by_cases h : p x = true <;> simp [List.filter_cons, h] <;> omega

theorem lookup_sizeOf {k : String} {kvs : List (String × Json)} {v : Json}
    (h : kvs.lookup k = some v) : sizeOf v < sizeOf kvs := by
  induction kvs with
  | nil => simp [List.lookup] at h
  | cons p rest ih =>
      obtain ⟨k', v'⟩ := p
      rw [List.lookup] at h
      by_cases hk : k == k'
      · simp [hk] at h
        subst h
        simp
        omega
      · simp [hk] at h
        have := ih h
        simp
        omega

theorem jsGet_sizeOf {a : Json} {k : String} {v : Json}
    (h : jsGet a k = some v) : sizeOf v < sizeOf a := by
  cases a <;> simp [jsGet] at h
  case obj kvs =>
    have := lookup_sizeOf h
    simp
    omega

theorem one_le_sizeOf_list {α : Type} [SizeOf α] (l : List α) : 1 ≤ sizeOf l := by
  cases l
  · simp
  · simp
    omega

theorem subsArr_sizeOf (a : Json) (h : isObjLike a = true) :
    sizeOf (subsArr a) < sizeOf a := by
  have hbig : 2 ≤ sizeOf a := by
    cases a with
    | null => simp [isObjLike] at h
    | bool b => simp [isObjLike] at h
    | num n => simp [isObjLike] at h
    | str s => simp [isObjLike] at h
    | arr xs => have := one_le_sizeOf_list xs; simp; omega
    | obj kvs => have := one_le_sizeOf_list kvs; simp; omega
  unfold subsArr
  cases ha : jsGet a "subAgents" with
  | none => simp; omega
  | some v =>
      have hv := jsGet_sizeOf ha
      cases v with
      | null => simp; omega
      | bool b => simp; omega
      | num n => simp; omega
      | str s => simp; omega
      | arr xs =>
          have hx : sizeOf xs < sizeOf (Json.arr xs) := by simp
          simp
          omega
      | obj kvs => simp; omega

/-- Analyzer.flattenAgents, generalized over the mutation override `ov`
(see `normalizeAgent`): each object-like element is normalized and emitted,
followed by the flattening of its nested sub-agent objects (which the
source mutates with `isSubAgent = true` and `parentAgent = agent.name`
before recursing — modelled by the override), followed by the remaining
siblings; non-object elements are skipped. -/
def flattenGo : Option (Option Json) → List Json → List NormalizedAgent
  | _, [] => []
  | ov, a :: rest =>
    if h : isObjLike a then
      normalizeAgent ov ((subsArr a).filterMap subRefName) a
        :: (flattenGo (some (jsGet a "name")) ((subsArr a).filter isNestedAgent) ++ flattenGo ov rest)
    else flattenGo ov rest
termination_by _ l => sizeOf l
decreasing_by
  · have h1 := sizeOf_filter_le isNestedAgent (subsArr a)
    have h2 := subsArr_sizeOf a h
    simp
    omega
  · simp
  · simp

/-- Analyzer.flattenAgents as called on the raw top-level agents array. -/
def flattenAgents (agents : List Json) : List NormalizedAgent :=
  flattenGo none agents

mutual
/-- JSON values containing no number literal (every value the registry
writes is number-free; the parser lemmas below are stated for these). -/
def numFree : Json → Bool
  | .null => true
  | .bool _ => true
  | .num _ => false
  | .str _ => true
  | .arr xs => numFreeL xs
  | .obj kvs => numFreeP kvs

/-- Number-freedom of a list of JSON values. -/
def numFreeL : List Json → Bool
  | [] => true
  | x :: xs => numFree x && numFreeL xs

/-- Number-freedom of a JSON object field list. -/
def numFreeP : List (String × Json) → Bool
  | [] => true
  | (_, v) :: kvs => numFree v && numFreeP kvs
end

mutual
/-- Fuel bound sufficient for `parseJ` to parse this value's serialization. -/
def jweight : Json → Nat
  | .arr xs => lweight xs + 1
  | .obj kvs => pweight kvs + 1
  | _ => 1

/-- Fuel bound for `parseElems` on the serialized elements. -/
def lweight : List Json → Nat
  | [] => 0
  | x :: xs => jweight x + lweight xs + 1

/-- Fuel bound for `parseMembers` on the serialized members. -/
def pweight : List (String × Json) → Nat
  | [] => 0
  | (_, v) :: kvs => jweight v + pweight kvs + 1
end

/-- Does a character list start with a non-whitespace character? -/
def headSolid : List Char → Bool
  | [] => false
  | c :: _ => !isWsChar c

theorem skipWs_cons_solid {c : Char} (cs : List Char) (h : isWsChar c = false) :
    skipWs (c :: cs) = c :: cs := by
  simp [skipWs, List.dropWhile_cons, h]

theorem skipWs_of_headSolid {l : List Char} (h : headSolid l = true) : skipWs l = l := by
  cases l with
  | nil => rfl
  | cons c cs =>
      simp [headSolid] at h
      exact skipWs_cons_solid cs h

theorem headSolid_append {l r : List Char} (h : headSolid l = true) :
    headSolid (l ++ r) = true := by
  cases l with
  | nil => simp [headSolid] at h
  | cons c cs => simpa [headSolid] using h

theorem hexVal_hexChar : ∀ k < 16, hexVal (hexChar k) = some k := by decide

theorem parseStrB_quote (t : List Char) : parseStrB ('"' :: t) = some ([], t) := by
  rw [parseStrB.eq_def]
  simp

theorem parseStrB_esc_quote (t : List Char) :
    parseStrB ('\\' :: '"' :: t) = (parseStrB t).map (fun p => ('"' :: p.1, p.2)) := by
  rw [parseStrB.eq_def]
  simp

theorem parseStrB_esc_back (t : List Char) :
    parseStrB ('\\' :: '\\' :: t) = (parseStrB t).map (fun p => ('\\' :: p.1, p.2)) := by
  rw [parseStrB.eq_def]
  simp

theorem parseStrB_esc_n (t : List Char) :
    parseStrB ('\\' :: 'n' :: t) = (parseStrB t).map (fun p => ('\n' :: p.1, p.2)) := by
  rw [parseStrB.eq_def]
  simp

theorem parseStrB_esc_r (t : List Char) :
    parseStrB ('\\' :: 'r' :: t) = (parseStrB t).map (fun p => ('\r' :: p.1, p.2)) := by
  rw [parseStrB.eq_def]
  simp

theorem parseStrB_esc_t (t : List Char) :
    parseStrB ('\\' :: 't' :: t) = (parseStrB t).map (fun p => ('\t' :: p.1, p.2)) := by
  rw [parseStrB.eq_def]
  simp

theorem parseStrB_esc_b (t : List Char) :
    parseStrB ('\\' :: 'b' :: t) = (parseStrB t).map (fun p => ('\x08' :: p.1, p.2)) := by
  rw [parseStrB.eq_def]
  simp

theorem parseStrB_esc_f (t : List Char) :
    parseStrB ('\\' :: 'f' :: t) = (parseStrB t).map (fun p => ('\x0c' :: p.1, p.2)) := by
  rw [parseStrB.eq_def]
  simp

theorem parseStrB_esc_u (h1 h2 h3 h4 : Char) (t : List Char) :
    parseStrB ('\\' :: 'u' :: h1 :: h2 :: h3 :: h4 :: t) =
      (match hexVal h1, hexVal h2, hexVal h3, hexVal h4 with
       | some a, some b, some c2, some d =>
         (parseStrB t).map (fun p => (Char.ofNat (((a * 16 + b) * 16 + c2) * 16 + d) :: p.1, p.2))
       | _, _, _, _ => none) := by
  rw [parseStrB.eq_def]
  simp

theorem parseStrB_raw {c : Char} (t : List Char) (h1 : ¬c = '"') (h2 : ¬c = '\\') :
    parseStrB (c :: t) = (parseStrB t).map (fun p => (c :: p.1, p.2)) := by
  rw [parseStrB.eq_def]
  simp [h1, h2]

theorem parseStrB_escChar (c : Char) (t : List Char) :
    parseStrB (escChar c ++ t) = (parseStrB t).map (fun p => (c :: p.1, p.2)) := by
  by_cases e1 : c = '"'
  · subst e1
    rw [show escChar '"' ++ t = '\\' :: '"' :: t from rfl, parseStrB_esc_quote]
  by_cases e2 : c = '\\'
  · subst e2
    rw [show escChar '\\' ++ t = '\\' :: '\\' :: t from rfl, parseStrB_esc_back]
  by_cases e3 : c = '\n'
  · subst e3
    rw [show escChar '\n' ++ t = '\\' :: 'n' :: t from rfl, parseStrB_esc_n]
  by_cases e4 : c = '\r'
  · subst e4
    rw [show escChar '\r' ++ t = '\\' :: 'r' :: t from rfl, parseStrB_esc_r]
  by_cases e5 : c = '\t'
  · subst e5
    rw [show escChar '\t' ++ t = '\\' :: 't' :: t from rfl, parseStrB_esc_t]
  by_cases e6 : c = '\x08'
  · subst e6
    rw [show escChar '\x08' ++ t = '\\' :: 'b' :: t from rfl, parseStrB_esc_b]
  by_cases e7 : c = '\x0c'
  · subst e7
    rw [show escChar '\x0c' ++ t = '\\' :: 'f' :: t from rfl, parseStrB_esc_f]
  by_cases e8 : c.toNat < 32
  · have hesc : escChar c =
        ['\\', 'u', '0', '0', hexChar (c.toNat / 16), hexChar (c.toNat % 16)] := by
      simp [escChar, e1, e2, e3, e4, e5, e6, e7, e8]
    have k1 : c.toNat / 16 < 16 := by omega
    have k2 : c.toNat % 16 < 16 := Nat.mod_lt _ (by norm_num)
    rw [hesc]
    show parseStrB ('\\' :: 'u' :: '0' :: '0' ::
      hexChar (c.toNat / 16) :: hexChar (c.toNat % 16) :: t) = _
    rw [parseStrB_esc_u]
    have hv0 : hexVal '0' = some 0 := by decide
    rw [hv0, hexVal_hexChar _ k1, hexVal_hexChar _ k2]
    have harith : ((0 * 16 + 0) * 16 + c.toNat / 16) * 16 + c.toNat % 16 = c.toNat := by
      omega
    simp only [harith, Char.ofNat_toNat]
  · have hesc : escChar c = [c] := by
      simp [escChar, e1, e2, e3, e4, e5, e6, e7, e8]
    rw [hesc]
    exact parseStrB_raw t e1 e2

theorem parseStrB_escList (cs : List Char) (rest : List Char) :
    parseStrB (escList cs ++ '"' :: rest) = some (cs, rest) := by
  induction cs with
  | nil => simp [escList, parseStrB_quote]
  | cons c cs ih =>
      have hstep : escList (c :: cs) = escChar c ++ escList cs := by
        simp [escList]
      rw [hstep, List.append_assoc, parseStrB_escChar, ih]
      rfl

theorem mkData (s : String) : String.mk s.data = s := rfl

theorem stringify_head_facts (j : Json) (h : numFree j = true) :
    ∃ c t, stringify j = c :: t ∧ isWsChar c = false ∧ c ≠ ']' ∧ c ≠ '\x7d' := by
  cases j with
  | null => exact ⟨'n', ['u', 'l', 'l'], by rw [stringify], by decide, by decide, by decide⟩
  | bool b =>
      cases b with
      | true => exact ⟨'t', ['r', 'u', 'e'], by rw [stringify], by decide, by decide, by decide⟩
      | false => exact ⟨'f', ['a', 'l', 's', 'e'], by rw [stringify], by decide, by decide, by decide⟩
  | num n => simp [numFree] at h
  | str s => exact ⟨'"', escList s.data ++ ['"'], by rw [stringify], by decide, by decide, by decide⟩
  | arr xs => exact ⟨'[', strElems xs ++ [']'], by rw [stringify], by decide, by decide, by decide⟩
  | obj kvs => exact ⟨'\x7b', strMembers kvs ++ ['\x7d'], by rw [stringify], by decide, by decide, by decide⟩

theorem strElems_cons_head (x : Json) (xs : List Json) :
    ∃ t, strElems (x :: xs) = stringify x ++ t := by
  cases xs with
  | nil => exact ⟨[], by rw [strElems]; simp⟩
  | cons y ys => exact ⟨',' :: strElems (y :: ys), by rw [strElems] <;> simp⟩

theorem strMembers_cons_head (k : String) (v : Json) (kvs : List (String × Json)) :
    ∃ t, strMembers ((k, v) :: kvs) = '"' :: t := by
  cases kvs with
  | nil => exact ⟨escList k.data ++ '"' :: ':' :: stringify v, by rw [strMembers]⟩
  | cons m ms =>
      exact ⟨(escList k.data ++ '"' :: ':' :: stringify v) ++ ',' :: strMembers (m :: ms),
        by rw [strMembers] <;> simp⟩

theorem parseRound : ∀ fuel : Nat,
    (∀ j : Json, numFree j = true → jweight j < fuel →
      ∀ rest, parseJ fuel (stringify j ++ rest) = some (j, rest)) ∧
    (∀ xs : List Json, xs ≠ [] → numFreeL xs = true → lweight xs < fuel →
      ∀ acc rest, parseElems fuel (strElems xs ++ ']' :: rest) acc = some (.arr (acc ++ xs), rest)) ∧
    (∀ kvs : List (String × Json), kvs ≠ [] → numFreeP kvs = true → pweight kvs < fuel →
      ∀ acc rest,
        parseMembers fuel (strMembers kvs ++ '\x7d' :: rest) acc = some (.obj (acc ++ kvs), rest)) := by
  intro fuel
  induction fuel with
  | zero =>
      refine ⟨fun j _ hw => absurd hw (by omega), fun xs _ _ hw => absurd hw (by omega),
        fun kvs _ _ hw => absurd hw (by omega)⟩
  | succ f ih =>
      obtain ⟨ihA, ihB, ihC⟩ := ih
      refine ⟨?_, ?_, ?_⟩
      · intro j hnf hw rest
        cases j with
        | null =>
            rw [stringify, parseJ]
            simp [skipWs, isWsChar, startsSeg]
        | bool b =>
            cases b with
            | true =>
                rw [stringify, parseJ]
                simp [skipWs, isWsChar, startsSeg]
            | false =>
                rw [stringify, parseJ]
                simp [skipWs, isWsChar, startsSeg]
        | num n => simp [numFree] at hnf
        | str s =>
            have hinput : stringify (.str s) ++ rest = '"' :: (escList s.data ++ ('"' :: rest)) := by
              rw [stringify]
              simp [List.append_assoc]
            rw [hinput, parseJ]
            simp [skipWs, isWsChar, parseStrB_escList, mkData]
        | arr xs =>
            cases xs with
            | nil =>
                have hinput : stringify (.arr []) ++ rest = '[' :: ']' :: rest := by
                  rw [stringify, strElems]
                  simp
                rw [hinput, parseJ]
                simp [skipWs, isWsChar]
            | cons x xs' =>
                rw [numFree] at hnf
                rw [jweight] at hw
                have hnfx : numFree x = true := by
                  rw [numFreeL] at hnf
                  exact (Bool.and_eq_true _ _ |>.mp hnf).1
                have hw' : lweight (x :: xs') < f := by omega
                obtain ⟨c, t, hct, hcw, hc1, hc2⟩ := stringify_head_facts x hnfx
                obtain ⟨tail, htail⟩ := strElems_cons_head x xs'
                have hshape : strElems (x :: xs') ++ ']' :: rest =
                    c :: (t ++ (tail ++ ']' :: rest)) := by
                  rw [htail, hct]
                  simp [List.append_assoc]
                have hinput : stringify (.arr (x :: xs')) ++ rest =
                    '[' :: (strElems (x :: xs') ++ ']' :: rest) := by
                  rw [stringify]
                  simp [List.append_assoc]
                have happ := ihB (x :: xs') (List.cons_ne_nil _ _) hnf hw' [] rest
                rw [hshape] at happ
                have hsk := skipWs_cons_solid (t ++ (tail ++ ']' :: rest)) hcw
                rw [hinput, parseJ, hshape]
                simp [skipWs_cons_solid _ (by decide : isWsChar '[' = false), hsk, hc1, happ]
        | obj kvs =>
            cases kvs with
            | nil =>
                have hinput : stringify (.obj []) ++ rest = '\x7b' :: '\x7d' :: rest := by
                  rw [stringify, strMembers]
                  simp
                rw [hinput, parseJ]
                simp [skipWs, isWsChar]
            | cons m ms =>
                obtain ⟨k, v⟩ := m
                rw [numFree] at hnf
                rw [jweight] at hw
                have hw' : pweight ((k, v) :: ms) < f := by omega
                obtain ⟨tail, htail⟩ := strMembers_cons_head k v ms
                have hshape : strMembers ((k, v) :: ms) ++ '\x7d' :: rest =
                    '"' :: (tail ++ '\x7d' :: rest) := by
                  rw [htail]
                  simp
                have hinput : stringify (.obj ((k, v) :: ms)) ++ rest =
                    '\x7b' :: (strMembers ((k, v) :: ms) ++ '\x7d' :: rest) := by
                  rw [stringify]
                  simp [List.append_assoc]
                have happ := ihC ((k, v) :: ms) (List.cons_ne_nil _ _) hnf hw' [] rest
                rw [hshape] at happ
                rw [hinput, parseJ, hshape]
                simp [skipWs, isWsChar, happ]
      · intro xs hne hnf hw acc rest
        cases xs with
        | nil => exact absurd rfl hne
        | cons x xs' =>
            rw [lweight] at hw
            rw [numFreeL] at hnf
            have hnfx : numFree x = true := (Bool.and_eq_true _ _ |>.mp hnf).1
            have hnfxs : numFreeL xs' = true := (Bool.and_eq_true _ _ |>.mp hnf).2
            have hwx : jweight x < f := by omega
            cases xs' with
            | nil =>
                have hs : strElems [x] = stringify x := by rw [strElems]
                rw [parseElems, hs, ihA x hnfx hwx (']' :: rest)]
                simp [skipWs, isWsChar]
            | cons y ys =>
                have hs : strElems (x :: y :: ys) = stringify x ++ ',' :: strElems (y :: ys) := by
                  rw [strElems] <;> simp
                have hwys : lweight (y :: ys) < f := by omega
                have hre : (stringify x ++ ',' :: strElems (y :: ys)) ++ ']' :: rest =
                    stringify x ++ (',' :: (strElems (y :: ys) ++ ']' :: rest)) := by
                  simp [List.append_assoc]
                have happ := ihB (y :: ys) (List.cons_ne_nil _ _) hnfxs hwys (acc ++ [x]) rest
                rw [parseElems, hs, hre, ihA x hnfx hwx (',' :: (strElems (y :: ys) ++ ']' :: rest))]
                simp [skipWs, isWsChar, happ]
      · intro kvs hne hnf hw acc rest
        cases kvs with
        | nil => exact absurd rfl hne
        | cons m ms =>
            obtain ⟨k, v⟩ := m
            rw [pweight] at hw
            rw [numFreeP] at hnf
            have hnfv : numFree v = true := (Bool.and_eq_true _ _ |>.mp hnf).1
            have hnfms : numFreeP ms = true := (Bool.and_eq_true _ _ |>.mp hnf).2
            have hwv : jweight v < f := by omega
            cases ms with
            | nil =>
                have hs : strMembers [(k, v)] = '"' :: (escList k.data ++ '"' :: ':' :: stringify v) := by
                  rw [strMembers]
                have hre : ('"' :: (escList k.data ++ '"' :: ':' :: stringify v)) ++ '\x7d' :: rest =
                    '"' :: (escList k.data ++ ('"' :: (':' :: (stringify v ++ '\x7d' :: rest)))) := by
                  simp [List.append_assoc]
                have hA := ihA v hnfv hwv ('\x7d' :: rest)
                rw [parseMembers, hs, hre]
                simp [skipWs, isWsChar, parseStrB_escList, hA, mkData]
            | cons m2 ms2 =>
                have hwms : pweight (m2 :: ms2) < f := by omega
                have hs : strMembers ((k, v) :: m2 :: ms2) =
                    ('"' :: (escList k.data ++ '"' :: ':' :: stringify v)) ++ ',' :: strMembers (m2 :: ms2) := by
                  rw [strMembers] <;> simp
                have hre : (('"' :: (escList k.data ++ '"' :: ':' :: stringify v)) ++ ',' :: strMembers (m2 :: ms2)) ++ '\x7d' :: rest =
                    '"' :: (escList k.data ++ ('"' :: (':' :: (stringify v ++ (',' :: (strMembers (m2 :: ms2) ++ '\x7d' :: rest)))))) := by
                  simp [List.append_assoc]
                have hA := ihA v hnfv hwv (',' :: (strMembers (m2 :: ms2) ++ '\x7d' :: rest))
                have happ := ihC (m2 :: ms2) (List.cons_ne_nil _ _) hnfms hwms (acc ++ [(k, v)]) rest
                rw [parseMembers, hs, hre]
                simp [skipWs, isWsChar, parseStrB_escList, hA, mkData, happ]

mutual
theorem jweight_le_len : ∀ j : Json, numFree j = true → jweight j ≤ (stringify j).length
  | .null, _ => by rw [stringify, jweight] <;> simp
  | .bool b, _ => by cases b <;> (rw [stringify, jweight] <;> simp)
  | .num n, h => by simp [numFree] at h
  | .str s, _ => by rw [stringify, jweight] <;> simp
  | .arr xs, h => by
      rw [stringify, jweight]
      have := lweight_le_len xs (by rwa [numFree] at h)
      simp only [List.length_cons, List.length_append, List.length_singleton]
      omega
  | .obj kvs, h => by
      rw [stringify, jweight]
      have := pweight_le_len kvs (by rwa [numFree] at h)
      simp only [List.length_cons, List.length_append, List.length_singleton]
      omega

theorem lweight_le_len : ∀ xs : List Json, numFreeL xs = true →
    lweight xs ≤ (strElems xs).length + 1
  | [], _ => by rw [strElems, lweight]; simp
  | [x], h => by
      rw [numFreeL] at h
      have hx := jweight_le_len x (Bool.and_eq_true _ _ |>.mp h).1
      rw [strElems, lweight, lweight]
      omega
  | x :: y :: ys, h => by
      rw [numFreeL] at h
      have hx := jweight_le_len x (Bool.and_eq_true _ _ |>.mp h).1
      have hys := lweight_le_len (y :: ys) (Bool.and_eq_true _ _ |>.mp h).2
      rw [lweight, show strElems (x :: y :: ys) = stringify x ++ ',' :: strElems (y :: ys) from
        by rw [strElems] <;> simp]
      simp only [List.length_append, List.length_cons]
      omega

theorem pweight_le_len : ∀ kvs : List (String × Json), numFreeP kvs = true →
    pweight kvs ≤ (strMembers kvs).length + 1
  | [], _ => by rw [strMembers, pweight]; simp
  | [(k, v)], h => by
      rw [numFreeP] at h
      have hv := jweight_le_len v (Bool.and_eq_true _ _ |>.mp h).1
      rw [strMembers, pweight, pweight]
      simp only [List.length_cons, List.length_append]
      omega
  | (k, v) :: m2 :: ms2, h => by
      rw [numFreeP] at h
      have hv := jweight_le_len v (Bool.and_eq_true _ _ |>.mp h).1
      have hms := pweight_le_len (m2 :: ms2) (Bool.and_eq_true _ _ |>.mp h).2
      rw [pweight, show strMembers ((k, v) :: m2 :: ms2) =
        ('"' :: (escList k.data ++ '"' :: ':' :: stringify v)) ++ ',' :: strMembers (m2 :: ms2) from
        by rw [strMembers] <;> simp]
      simp only [List.length_append, List.length_cons]
      omega
end

theorem jsonParse_stringify (j : Json) (h : numFree j = true) :
    jsonParse (stringify j) = some j := by
  have hw : jweight j ≤ (stringify j).length := jweight_le_len j h
  have hp := (parseRound ((stringify j).length + 1)).1 j h (by omega) []
  rw [List.append_nil] at hp
  rw [jsonParse, hp]
  simp [skipWs]

theorem mapM_parse_stringify (ls : List Json) (h : ∀ j ∈ ls, numFree j = true) :
    (ls.map stringify).mapM jsonParse = some ls := by
  induction ls with
  | nil => rfl
  | cons x xs ih =>
      simp only [List.map_cons, List.mapM_cons]
      rw [jsonParse_stringify x (h x (by simp))]
      rw [ih (fun j hj => h j (by simp [hj]))]
      rfl

theorem hexChar_lt16_ne_nl : ∀ k < 16, hexChar k ≠ '\n' := by decide

theorem escChar_no_nl (c : Char) : '\n' ∉ escChar c := by
  by_cases e1 : c = '"'
  · subst e1; decide
  by_cases e2 : c = '\\'
  · subst e2; decide
  by_cases e3 : c = '\n'
  · subst e3; decide
  by_cases e4 : c = '\r'
  · subst e4; decide
  by_cases e5 : c = '\t'
  · subst e5; decide
  by_cases e6 : c = '\x08'
  · subst e6; decide
  by_cases e7 : c = '\x0c'
  · subst e7; decide
  by_cases e8 : c.toNat < 32
  · have hesc : escChar c =
        ['\\', 'u', '0', '0', hexChar (c.toNat / 16), hexChar (c.toNat % 16)] := by
      simp [escChar, e1, e2, e3, e4, e5, e6, e7, e8]
    rw [hesc]
    have k1 : c.toNat / 16 < 16 := by omega
    have k2 : c.toNat % 16 < 16 := Nat.mod_lt _ (by norm_num)
    intro hmem
    have h1 := hexChar_lt16_ne_nl _ k1
    have h2 := hexChar_lt16_ne_nl _ k2
    simp only [List.mem_cons, List.not_mem_nil, or_false] at hmem
    rcases hmem with h | h | h | h | h | h
    · exact absurd h (by decide)
    · exact absurd h (by decide)
    · exact absurd h (by decide)
    · exact absurd h (by decide)
    · exact h1 h.symm
    · exact h2 h.symm
  · have hesc : escChar c = [c] := by
      simp [escChar, e1, e2, e3, e4, e5, e6, e7, e8]
    rw [hesc]
    intro hmem
    simp at hmem
    subst hmem
    exact e3 rfl

theorem escList_no_nl (cs : List Char) : '\n' ∉ escList cs := by
  induction cs with
  | nil => simp [escList]
  | cons c rest ih =>
      intro hmem
      rw [show escList (c :: rest) = escChar c ++ escList rest from by simp [escList]] at hmem
      rcases List.mem_append.mp hmem with h | h
      · exact escChar_no_nl c h
      · exact ih h

mutual
theorem stringify_no_nl : ∀ j : Json, numFree j = true → '\n' ∉ stringify j
  | .null, _ => by rw [stringify] <;> decide
  | .bool b, _ => by cases b <;> (rw [stringify] <;> decide)
  | .num n, h => by simp [numFree] at h
  | .str s, _ => by
      rw [stringify]
      intro hmem
      rcases List.mem_cons.mp hmem with h | h
      · exact absurd h.symm (by decide)
      rcases List.mem_append.mp h with h2 | h2
      · exact escList_no_nl s.data h2
      · simp at h2
  | .arr xs, h => by
      rw [stringify]
      intro hmem
      rcases List.mem_cons.mp hmem with h2 | h2
      · exact absurd h2.symm (by decide)
      rcases List.mem_append.mp h2 with h3 | h3
      · exact strElems_no_nl xs (by rwa [numFree] at h) h3
      · simp at h3
  | .obj kvs, h => by
      rw [stringify]
      intro hmem
      rcases List.mem_cons.mp hmem with h2 | h2
      · exact absurd h2.symm (by decide)
      rcases List.mem_append.mp h2 with h3 | h3
      · exact strMembers_no_nl kvs (by rwa [numFree] at h) h3
      · simp at h3

theorem strElems_no_nl : ∀ xs : List Json, numFreeL xs = true → '\n' ∉ strElems xs
  | [], _ => by rw [strElems]; simp
  | [x], h => by
      rw [strElems]
      exact stringify_no_nl x (by rw [numFreeL] at h; exact (Bool.and_eq_true _ _ |>.mp h).1)
  | x :: y :: ys, h => by
      rw [numFreeL] at h
      rw [show strElems (x :: y :: ys) = stringify x ++ ',' :: strElems (y :: ys) from
        by rw [strElems] <;> simp]
      intro hmem
      rcases List.mem_append.mp hmem with h2 | h2
      · exact stringify_no_nl x (Bool.and_eq_true _ _ |>.mp h).1 h2
      rcases List.mem_cons.mp h2 with h3 | h3
      · exact absurd h3.symm (by decide)
      · exact strElems_no_nl (y :: ys) (Bool.and_eq_true _ _ |>.mp h).2 h3

theorem strMembers_no_nl : ∀ kvs : List (String × Json), numFreeP kvs = true →
    '\n' ∉ strMembers kvs
  | [], _ => by rw [strMembers]; simp
  | [(k, v)], h => by
      rw [numFreeP] at h
      rw [strMembers]
      intro hmem
      rcases List.mem_cons.mp hmem with h2 | h2
      · exact absurd h2.symm (by decide)
      rcases List.mem_append.mp h2 with h3 | h3
      · exact escList_no_nl k.data h3
      rcases List.mem_cons.mp h3 with h4 | h4
      · exact absurd h4.symm (by decide)
      rcases List.mem_cons.mp h4 with h5 | h5
      · exact absurd h5.symm (by decide)
      · exact stringify_no_nl v (Bool.and_eq_true _ _ |>.mp h).1 h5
  | (k, v) :: m2 :: ms2, h => by
      rw [numFreeP] at h
      rw [show strMembers ((k, v) :: m2 :: ms2) =
        ('"' :: (escList k.data ++ '"' :: ':' :: stringify v)) ++ ',' :: strMembers (m2 :: ms2) from
        by rw [strMembers] <;> simp]
      intro hmem
      rcases List.mem_append.mp hmem with h2 | h2
      · rcases List.mem_cons.mp h2 with h3 | h3
        · exact absurd h3.symm (by decide)
        rcases List.mem_append.mp h3 with h4 | h4
        · exact escList_no_nl k.data h4
        rcases List.mem_cons.mp h4 with h5 | h5
        · exact absurd h5.symm (by decide)
        rcases List.mem_cons.mp h5 with h6 | h6
        · exact absurd h6.symm (by decide)
        · exact stringify_no_nl v (Bool.and_eq_true _ _ |>.mp h).1 h6
      rcases List.mem_cons.mp h2 with h3 | h3
      · exact absurd h3.symm (by decide)
      · exact strMembers_no_nl (m2 :: ms2) (Bool.and_eq_true _ _ |>.mp h).2 h3
end

theorem stringify_ne_nil (j : Json) (h : numFree j = true) : stringify j ≠ [] := by
  obtain ⟨c, t, hct, _, _, _⟩ := stringify_head_facts j h
  rw [hct]
  simp

theorem dataMk (l : List Char) : (String.mk l).data = l := rfl

theorem headSolid_stringify (j : Json) (h : numFree j = true) :
    headSolid (stringify j) = true := by
  obtain ⟨c, t, hct, hcw, _, _⟩ := stringify_head_facts j h
  rw [hct]
  simp [headSolid, hcw]

theorem revHeadSolid_stringify (j : Json) (h : numFree j = true) :
    headSolid (stringify j).reverse = true := by
  cases j with
  | null => rw [stringify] <;> decide
  | bool b => cases b <;> (rw [stringify] <;> decide)
  | num n => simp [numFree] at h
  | str s =>
      rw [stringify]
      simp [List.reverse_cons, List.reverse_append, headSolid, isWsChar]
  | arr xs =>
      rw [stringify]
      simp [List.reverse_cons, List.reverse_append, headSolid, isWsChar]
  | obj kvs =>
      rw [stringify]
      simp [List.reverse_cons, List.reverse_append, headSolid, isWsChar]

theorem headSolid_joinNl (ls : List Json) (h : ∀ j ∈ ls, numFree j = true) (hne : ls ≠ []) :
    headSolid (joinNl (ls.map stringify)) = true := by
  cases ls with
  | nil => exact absurd rfl hne
  | cons x xs =>
      cases xs with
      | nil =>
          rw [show joinNl ([x].map stringify) = stringify x from by rw [List.map_singleton, joinNl]]
          exact headSolid_stringify x (h x (by simp))
      | cons y ys =>
          rw [show joinNl ((x :: y :: ys).map stringify) =
              stringify x ++ '\n' :: joinNl ((y :: ys).map stringify) from by
            rw [List.map_cons, List.map_cons, joinNl] <;> simp]
          exact headSolid_append (headSolid_stringify x (h x (by simp)))

theorem revHeadSolid_joinNl (ls : List Json) (h : ∀ j ∈ ls, numFree j = true) (hne : ls ≠ []) :
    headSolid (joinNl (ls.map stringify)).reverse = true := by
  induction ls with
  | nil => exact absurd rfl hne
  | cons x xs ih =>
      cases xs with
      | nil =>
          rw [show joinNl ([x].map stringify) = stringify x from by rw [List.map_singleton, joinNl]]
          exact revHeadSolid_stringify x (h x (by simp))
      | cons y ys =>
          rw [show joinNl ((x :: y :: ys).map stringify) =
              stringify x ++ '\n' :: joinNl ((y :: ys).map stringify) from by
            rw [List.map_cons, List.map_cons, joinNl] <;> simp]
          rw [List.reverse_append, List.reverse_cons]
          rw [List.append_assoc]
          exact headSolid_append (ih (fun j hj => h j (by simp at hj ⊢; tauto)) (by simp))

theorem trim_render (ls : List Json) (h : ∀ j ∈ ls, numFree j = true) (hne : ls ≠ []) :
    trimChars (renderLines ls) = joinNl (ls.map stringify) := by
  unfold renderLines trimChars
  have hhead : headSolid (joinNl (ls.map stringify) ++ ['\n']) = true :=
    headSolid_append (headSolid_joinNl ls h hne)
  have h1 : (joinNl (ls.map stringify) ++ ['\n']).dropWhile isWsChar =
      joinNl (ls.map stringify) ++ ['\n'] := skipWs_of_headSolid hhead
  rw [h1]
  rw [show (joinNl (ls.map stringify) ++ ['\n']).reverse =
      '\n' :: (joinNl (ls.map stringify)).reverse from by simp]
  rw [List.dropWhile_cons]
  rw [show isWsChar '\n' = true from by decide]
  simp only [if_true]
  have h2 : List.dropWhile isWsChar (joinNl (ls.map stringify)).reverse =
      (joinNl (ls.map stringify)).reverse := skipWs_of_headSolid (revHeadSolid_joinNl ls h hne)
  rw [h2]
  simp

theorem splitNl_no_nl (x : List Char) (h : '\n' ∉ x) : splitNl x = [x] := by
  induction x with
  | nil => rfl
  | cons c cs ih =>
      have hc : ¬c = '\n' := fun e => h (by simp [e])
      have hcs : '\n' ∉ cs := fun e => h (by simp [e])
      rw [splitNl, if_neg hc, ih hcs]

theorem splitNl_append (x r : List Char) (h : '\n' ∉ x) :
    splitNl (x ++ '\n' :: r) = x :: splitNl r := by
  induction x with
  | nil =>
      simp only [List.nil_append]
      rw [splitNl, if_pos rfl]
  | cons c cs ih =>
      have hc : ¬c = '\n' := fun e => h (by simp [e])
      have hcs : '\n' ∉ cs := fun e => h (by simp [e])
      simp only [List.cons_append]
      rw [splitNl, if_neg hc, ih hcs]

theorem splitNl_joinNl (ls : List (List Char)) (hne : ls ≠ []) (h : ∀ x ∈ ls, '\n' ∉ x) :
    splitNl (joinNl ls) = ls := by
  induction ls with
  | nil => exact absurd rfl hne
  | cons x xs ih =>
      cases xs with
      | nil =>
          rw [joinNl]
          exact splitNl_no_nl x (h x (by simp))
      | cons y ys =>
          rw [show joinNl (x :: y :: ys) = x ++ '\n' :: joinNl (y :: ys) from by
            rw [joinNl] <;> simp]
          rw [splitNl_append x _ (h x (by simp))]
          rw [ih (by simp) (fun z hz => h z (by simp at hz ⊢; tauto))]

theorem filter_nonempty (ls : List (List Char)) (h : ∀ x ∈ ls, x ≠ []) :
    ls.filter (fun l => !l.isEmpty) = ls := by
  apply List.filter_eq_self.mpr
  intro a ha
  simp [List.isEmpty_iff]
  exact h a ha

theorem readLines_render (ls : List Json) (h : ∀ j ∈ ls, numFree j = true) :
    readLines (String.mk (renderLines ls)) = ls.map stringify := by
  cases ls with
  | nil => decide
  | cons x xs =>
      unfold readLines
      rw [dataMk]
      rw [trim_render _ h (by simp)]
      rw [splitNl_joinNl _ (by simp) (by
        intro z hz
        rw [List.mem_map] at hz
        obtain ⟨j, hj, rfl⟩ := hz
        exact stringify_no_nl j (h j hj))]
      exact filter_nonempty _ (by
        intro z hz
        rw [List.mem_map] at hz
        obtain ⟨j, hj, rfl⟩ := hz
        exact stringify_ne_nil j (h j hj))

theorem parseAllLines_render (ls : List Json) (h : ∀ j ∈ ls, numFree j = true) :
    parseAllLines (String.mk (renderLines ls)) = some ls := by
  unfold parseAllLines
  rw [readLines_render ls h]
  exact mapM_parse_stringify ls h

theorem list_of_render (ls : List Json) (h : ∀ j ∈ ls, numFree j = true) :
    Registry.list (some (String.mk (renderLines ls))) = ls := by
  rw [show Registry.list (some (String.mk (renderLines ls))) =
      (parseAllLines (String.mk (renderLines ls))).getD [] from rfl]
  rw [parseAllLines_render ls h]
  rfl

theorem numFreeL_map_str (ts : List String) : numFreeL (ts.map Json.str) = true := by
  induction ts with
  | nil => rw [List.map_nil, numFreeL]
  | cons t ts ih =>
      rw [List.map_cons, numFreeL, ih]
      simp [numFree]

theorem numFree_entryJson (e : RegistryEntry) : numFree e.toJson = true := by
  rcases e with ⟨ty, nm, fl, de, cat, trg, isub, par, subs⟩
  rw [RegistryEntry.toJson, numFree]
  cases cat <;> cases isub <;> cases par <;> cases subs <;>
    simp [optField, numFreeP, numFree, numFreeL_map_str]

theorem jsGetE_entry (e : RegistryEntry) :
    jsGetE e.toJson "type" = some (some (.str e.type)) ∧
    jsGetE e.toJson "name" = some (some (.str e.name)) ∧
    jsGetE e.toJson "description" = some (some (.str e.description)) ∧
    jsGetE e.toJson "triggers" = some (some (.arr (e.triggers.map .str))) ∧
    jsGetE e.toJson "category" = some (e.category.map .str) ∧
    jsGetE e.toJson "isSubAgent" = some (e.isSubAgent.map .bool) := by
  rcases e with ⟨ty, nm, fl, de, cat, trg, isub, par, subs⟩
  cases cat <;> cases isub <;> cases par <;> cases subs <;>
    simp [RegistryEntry.toJson, optField, jsGetE, List.lookup]

theorem trigScoreE_map_str (qL : String) (ts : List String) :
    trigScoreE qL (ts.map Json.str) = some (scoreTriggersT qL ts) := by
  induction ts with
  | nil => rfl
  | cons t ts ih =>
      rw [List.map_cons, trigScoreE, scoreTriggersT]
      simp [toLowerE, ih]

theorem scoreEntryE_toJson (qL : String) (e : RegistryEntry) :
    scoreEntryE qL e.toJson = some (scoreEntryT qL e) := by
  obtain ⟨h1, h2, h3, h4, h5, h6⟩ := jsGetE_entry e
  rw [scoreEntryE, h2]
  simp only [Option.bind_eq_bind, Option.some_bind]
  rw [show toLowerE (some (Json.str e.name)) = some (strToLower e.name) from rfl]
  simp only [Option.some_bind]
  rw [h3]
  simp only [Option.some_bind]
  rw [show toLowerE (some (Json.str e.description)) = some (strToLower e.description) from rfl]
  simp only [Option.some_bind]
  rw [h4]
  simp only [Option.some_bind]
  rw [show jsIterE (some (Json.arr (e.triggers.map Json.str))) =
    some (e.triggers.map Json.str) from rfl]
  simp only [Option.some_bind]
  rw [trigScoreE_map_str qL e.triggers]
  simp only [Option.some_bind]
  rw [h5, h1, h6]
  simp only [Option.some_bind]
  cases hc : e.category with
  | none =>
      cases hs : e.isSubAgent with
      | none =>
          simp [scoreEntryT, hc, hs, jsTruthyU, jsTruthy]
      | some b =>
          simp [scoreEntryT, hc, hs, jsTruthyU, jsTruthy]
  | some c =>
      cases hs : e.isSubAgent with
      | none =>
          simp [scoreEntryT, hc, hs, jsTruthyU, jsTruthy]
      | some b =>
          simp [scoreEntryT, hc, hs, jsTruthyU, jsTruthy]

theorem typeFilterE_toJson (tf : String) (es : List RegistryEntry) :
    typeFilterE tf (es.map RegistryEntry.toJson) =
      some ((es.filter fun e => e.type = tf).map RegistryEntry.toJson) := by
  induction es with
  | nil => rfl
  | cons e es ih =>
      rw [List.map_cons, typeFilterE]
      obtain ⟨h1, _⟩ := jsGetE_entry e
      rw [h1]
      simp only [Option.bind_eq_bind, Option.some_bind]
      rw [ih]
      simp only [Option.some_bind]
      by_cases he : e.type = tf
      · simp [he, List.filter_cons]
      · simp [he, List.filter_cons]

theorem scoreAllE_toJson (qL : String) (es : List RegistryEntry) :
    scoreAllE qL (es.map RegistryEntry.toJson) =
      some (es.map fun e => (RegistryEntry.toJson e, scoreEntryT qL e)) := by
  induction es with
  | nil => rfl
  | cons e es ih =>
      rw [List.map_cons, scoreAllE]
      rw [scoreEntryE_toJson qL e]
      simp only [Option.bind_eq_bind, Option.some_bind]
      rw [ih]
      rfl

theorem insScored_map {α β : Type} (f : α → β) (x : α × Nat) (l : List (α × Nat)) :
    insScored (f x.1, x.2) (l.map fun p => (f p.1, p.2)) =
      (insScored x l).map fun p => (f p.1, p.2) := by
  induction l with
  | nil => rfl
  | cons y ys ih =>
      by_cases h : y.2 ≤ x.2 <;> simp [insScored, h, ih]

theorem sortScored_map {α β : Type} (f : α → β) (l : List (α × Nat)) :
    sortScored (l.map fun p => (f p.1, p.2)) = (sortScored l).map fun p => (f p.1, p.2) := by
  induction l with
  | nil => rfl
  | cons x xs ih =>
      rw [List.map_cons, sortScored, sortScored, ih]
      exact insScored_map f x (sortScored xs)

theorem mem_insScored {α : Type} (x y : α × Nat) (l : List (α × Nat)) :
    y ∈ insScored x l ↔ y = x ∨ y ∈ l := by
  induction l with
  | nil => simp [insScored]
  | cons z zs ih =>
      by_cases h : z.2 ≤ x.2 <;> simp [insScored, h, ih] <;> tauto

theorem mem_sortScored {α : Type} (y : α × Nat) (l : List (α × Nat)) :
    y ∈ sortScored l ↔ y ∈ l := by
  induction l with
  | nil => simp [sortScored]
  | cons z zs ih =>
      rw [sortScored, mem_insScored]
      simp [ih]

theorem insScored_pairwise {α : Type} (x : α × Nat) (l : List (α × Nat))
    (h : l.Pairwise fun a b => b.2 ≤ a.2) :
    (insScored x l).Pairwise fun a b => b.2 ≤ a.2 := by
  induction l with
  | nil => simp [insScored]
  | cons y ys ih =>
      rw [List.pairwise_cons] at h
      by_cases hxy : y.2 ≤ x.2
      · rw [show insScored x (y :: ys) = x :: y :: ys from by rw [insScored, if_pos hxy]]
        rw [List.pairwise_cons]
        constructor
        · intro z hz
          rcases List.mem_cons.mp hz with rfl | hz2
          · exact hxy
          · exact le_trans (h.1 z hz2) hxy
        · rw [List.pairwise_cons]
          exact h
      · rw [show insScored x (y :: ys) = y :: insScored x ys from by rw [insScored, if_neg hxy]]
        rw [List.pairwise_cons]
        constructor
        · intro z hz
          rcases (mem_insScored x z ys).mp hz with rfl | hz2
          · omega
          · exact h.1 z hz2
        · exact ih h.2

theorem sortScored_pairwise {α : Type} (l : List (α × Nat)) :
    (sortScored l).Pairwise fun a b => b.2 ≤ a.2 := by
  induction l with
  | nil => simp [sortScored]
  | cons x xs ih =>
      rw [sortScored]
      exact insScored_pairwise x (sortScored xs) ih

theorem insScored_filter_score {α : Type} (x : α × Nat) (l : List (α × Nat)) (s : Nat) :
    (insScored x l).filter (fun p => p.2 = s) =
      if x.2 = s then x :: l.filter (fun p => p.2 = s) else l.filter (fun p => p.2 = s) := by
  induction l with
  | nil =>
      by_cases hx : x.2 = s <;> simp [insScored, List.filter_cons, hx]
  | cons y ys ih =>
      by_cases hxy : y.2 ≤ x.2
      · rw [show insScored x (y :: ys) = x :: y :: ys from by rw [insScored, if_pos hxy]]
        by_cases hx : x.2 = s <;> simp [List.filter_cons, hx]
      · rw [show insScored x (y :: ys) = y :: insScored x ys from by rw [insScored, if_neg hxy]]
        by_cases hx : x.2 = s
        · have hy : ¬(y.2 = s) := by omega
          simp [List.filter_cons, hy, ih, hx]
        · by_cases hy : y.2 = s <;> simp [List.filter_cons, hy, ih, hx]

theorem sortScored_filter_score {α : Type} (l : List (α × Nat)) (s : Nat) :
    (sortScored l).filter (fun p => p.2 = s) = l.filter (fun p => p.2 = s) := by
  induction l with
  | nil => rfl
  | cons x xs ih =>
      rw [sortScored, insScored_filter_score]
      by_cases hx : x.2 = s <;> simp [List.filter_cons, hx, ih]

theorem filter_pos_map (qL : String) (es : List RegistryEntry) :
    ((es.map fun e => (RegistryEntry.toJson e, scoreEntryT qL e)).filter fun s => 0 < s.2) =
      ((es.map fun e => (e, scoreEntryT qL e)).filter fun s => 0 < s.2).map
        fun p => (RegistryEntry.toJson p.1, p.2) := by
  induction es with
  | nil => rfl
  | cons e es ih =>
      by_cases h : 0 < scoreEntryT qL e <;>
        simp [List.filter_cons, h, ih]

theorem search_render (es : List RegistryEntry) (q : String) (otype : Option String)
    (olimit : Option Nat) :
    Registry.search (some (String.mk (renderLines (es.map RegistryEntry.toJson)))) q otype olimit =
      (searchPure q otype olimit es).map RegistryEntry.toJson := by
  have hnf : ∀ j ∈ es.map RegistryEntry.toJson, numFree j = true := by
    intro j hj
    rw [List.mem_map] at hj
    obtain ⟨e, _, rfl⟩ := hj
    exact numFree_entryJson e
  have hparse := parseAllLines_render (es.map RegistryEntry.toJson) hnf
  unfold Registry.search searchPure
  simp only []
  rw [hparse]
  cases otype with
  | none =>
      simp only [Option.bind_eq_bind, Option.pure_def, Option.some_bind, typeFilterT]
      rw [scoreAllE_toJson]
      simp only
      rw [filter_pos_map]
      rw [sortScored_map]
      rw [← List.map_take]
      simp [List.map_map, Function.comp_def]
  | some tf =>
      by_cases htf : tf = ""
      · subst htf
        simp only [Option.bind_eq_bind, Option.pure_def, Option.some_bind, typeFilterT,
          if_true, ite_true]
        rw [scoreAllE_toJson]
        simp only
        rw [filter_pos_map]
        rw [sortScored_map]
        rw [← List.map_take]
        simp [List.map_map, Function.comp_def]
      · simp only [Option.bind_eq_bind, Option.some_bind, typeFilterT, if_neg htf]
        rw [typeFilterE_toJson]
        simp only [Option.some_bind]
        rw [scoreAllE_toJson]
        simp only
        rw [filter_pos_map]
        rw [sortScored_map]
        rw [← List.map_take]
        simp [List.map_map, Function.comp_def]

theorem findEntryE_toJson (nm : String) (es : List RegistryEntry) :
    findEntryE nm (es.map RegistryEntry.toJson) =
      some ((es.find? fun e => e.name = nm).map RegistryEntry.toJson) := by
  induction es with
  | nil => rfl
  | cons e es ih =>
      rw [List.map_cons, findEntryE]
      obtain ⟨_, h2, _⟩ := jsGetE_entry e
      rw [h2]
      simp only [Option.bind_eq_bind, Option.some_bind]
      by_cases he : e.name = nm
      · simp [List.find?_cons, he]
      · simp [List.find?_cons, he, ih]

theorem mapM_parse_none (ls : List (List Char)) (h : ∃ l ∈ ls, jsonParse l = none) :
    ls.mapM jsonParse = none := by
  induction ls with
  | nil => simp at h
  | cons c cs ih =>
      rw [List.mapM_cons]
      obtain ⟨l, hl, hfail⟩ := h
      rcases List.mem_cons.mp hl with rfl | hl2
      · rw [hfail]
        rfl
      · cases hc : jsonParse c with
        | none => rfl
        | some j =>
            rw [ih ⟨l, hl2, hfail⟩]
            rfl

theorem splitNl_joinNl_append (ls : List (List Char)) (r : List Char) (hne : ls ≠ [])
    (h : ∀ x ∈ ls, '\n' ∉ x) : splitNl (joinNl ls ++ '\n' :: r) = ls ++ splitNl r := by
  induction ls with
  | nil => exact absurd rfl hne
  | cons x xs ih =>
      cases xs with
      | nil =>
          rw [joinNl]
          rw [splitNl_append x r (h x (by simp))]
          rfl
      | cons y ys =>
          rw [show joinNl (x :: y :: ys) = x ++ '\n' :: joinNl (y :: ys) from by
            rw [joinNl] <;> simp]
          rw [show (x ++ '\n' :: joinNl (y :: ys)) ++ '\n' :: r =
              x ++ '\n' :: (joinNl (y :: ys) ++ '\n' :: r) from by simp]
          rw [splitNl_append x _ (h x (by simp))]
          rw [ih (by simp) (fun z hz => h z (by simp at hz ⊢; tauto))]
          rfl

theorem strContains_empty (s : String) : strContainsB s "" = true := by
  unfold strContainsB
  cases s.data with
  | nil => rfl
  | cons c cs => simp [hasSeg, startsSeg]

theorem scoreEntryT_empty_ge (e : RegistryEntry) : 50 ≤ scoreEntryT "" e := by
  unfold scoreEntryT
  rw [strContains_empty]
  simp only [if_true]
  omega

/-- The name-derived part of the score (+100 exact, +50 substring). -/
def nameScore (qL : String) (e : RegistryEntry) : Nat :=
  (if (strToLower e.name) = qL then 100 else 0) +
    (if strContainsB (strToLower e.name) qL then 50 else 0)

/-- The category row of the scoring table (+10 when the category contains
the query; skills only, since agent entries carry no category). -/
def categoryScore (qL : String) (e : RegistryEntry) : Nat :=
  match e.category with
  | some c => if strContainsB (strToLower c) qL then 10 else 0
  | none => 0

/-- The root-agent boost row (+5 for an agent entry whose isSubAgent is
falsy). -/
def rootBoost (e : RegistryEntry) : Nat :=
  if e.type = "agent" && !(e.isSubAgent.getD false) then 5 else 0

/-- The non-name part of the score: description, triggers, category and
root boost rows. -/
def nonNameScore (qL : String) (e : RegistryEntry) : Nat :=
  (if strContainsB (strToLower e.description) qL then 30 else 0) +
    scoreTriggersT qL e.triggers + categoryScore qL e + rootBoost e

theorem scoreEntryT_decomp (qL : String) (e : RegistryEntry) :
    scoreEntryT qL e = nameScore qL e + nonNameScore qL e := by
  unfold scoreEntryT nameScore nonNameScore categoryScore rootBoost
  omega

theorem startsSeg_refl (l : List Char) : startsSeg l l = true := by
  induction l with
  | nil => rfl
  | cons c cs ih => simp [startsSeg, ih]

theorem strContains_self (s : String) : strContainsB s s = true := by
  unfold strContainsB
  cases s.data with
  | nil => rfl
  | cons c cs => simp [hasSeg, startsSeg_refl]

theorem scoreEntryT_congr (qL : String) {e1 e2 : RegistryEntry}
    (h : e1.toJson = e2.toJson) : scoreEntryT qL e1 = scoreEntryT qL e2 := by
  have h1 := jsGetE_entry e1
  have h2 := jsGetE_entry e2
  rw [h] at h1
  have hty : e1.type = e2.type := by
    have := h1.1.symm.trans h2.1
    simpa using this
  have hnm : e1.name = e2.name := by
    have := h1.2.1.symm.trans h2.2.1
    simpa using this
  have hde : e1.description = e2.description := by
    have := h1.2.2.1.symm.trans h2.2.2.1
    simpa using this
  have htr : e1.triggers = e2.triggers := by
    have := h1.2.2.2.1.symm.trans h2.2.2.2.1
    simp at this
    exact List.map_injective_iff.mpr (fun a b hab => by injection hab) this
  have hca : e1.category = e2.category := by
    have := h1.2.2.2.2.1.symm.trans h2.2.2.2.2.1
    simp at this
    cases hc1 : e1.category <;> cases hc2 : e2.category <;> rw [hc1, hc2] at this <;>
      simp_all
  have his : e1.isSubAgent = e2.isSubAgent := by
    have := h1.2.2.2.2.2.symm.trans h2.2.2.2.2.2
    simp at this
    cases hc1 : e1.isSubAgent <;> cases hc2 : e2.isSubAgent <;> rw [hc1, hc2] at this <;>
      simp_all
  unfold scoreEntryT
  rw [hty, hnm, hde, htr, hca, his]

theorem mem_typeFilterT {otype : Option String} {es : List RegistryEntry} {e : RegistryEntry}
    (h : e ∈ typeFilterT otype es) : e ∈ es := by
  cases otype with
  | none => exact h
  | some tf =>
      rw [show typeFilterT (some tf) es =
        if tf = "" then es else es.filter (fun e => e.type = tf) from rfl] at h
      by_cases htf : tf = ""
      · rwa [if_pos htf] at h
      · rw [if_neg htf] at h
        exact List.mem_of_mem_filter h

theorem mem_kept_shape {q : String} {otype : Option String} {es : List RegistryEntry}
    {p : RegistryEntry × Nat} (hp : p ∈ keptEntries q otype es) :
    p.2 = scoreEntryT (strToLower q) p.1 ∧ p.1 ∈ es ∧ 0 < p.2 := by
  unfold keptEntries at hp
  have h1 := List.mem_of_mem_filter hp
  have h2 := List.of_mem_filter hp
  rw [List.mem_map] at h1
  obtain ⟨e, he, rfl⟩ := h1
  refine ⟨rfl, mem_typeFilterT he, by simpa using h2⟩

theorem sortScored_score_lt_index {α : Type} (l : List (α × Nat)) (i j : Nat)
    (p q : α × Nat) (hi : (sortScored l).get? i = some p) (hj : (sortScored l).get? j = some q)
    (hlt : q.2 < p.2) : i < j := by
  by_contra hc
  push_neg at hc
  rcases Nat.eq_or_lt_of_le hc with heq | hlt2
  · subst heq
    rw [hi] at hj
    injection hj with hpq
    subst hpq
    omega
  · have hp := sortScored_pairwise l
    rw [List.pairwise_iff_get] at hp
    obtain ⟨hi', hig⟩ := List.get?_eq_some.mp hi
    obtain ⟨hj', hjg⟩ := List.get?_eq_some.mp hj
    have := hp ⟨j, hj'⟩ ⟨i, hi'⟩ hlt2
    rw [hig, hjg] at this
    omega

/-- A concrete skill used by witnesses. -/
def sampleSkill : SkillDefinition :=
  { name := "auth", description := "authentication flows", sourceDir := "src/auth",
    patterns := [], triggers := ["login"], category := "security", examples := [] }

/-- A concrete agent used by witnesses. -/
def sampleAgent : AgentDefinition :=
  { name := "root", description := "orchestrator", skills := ["auth"], tools := [],
    isSubAgent := false, parentAgent := none, subAgents := some ["child"],
    triggers := ["build"], sourceDir := none }

/-- C1: Registry.search on a registry holding the serialization of `es`
returns exactly the `limit`-prefix (default 10) of the stable descending
sort of the positively-scored type-filtered entries: the sorted list is
pairwise descending in score, and for every score value its sublist of
entries with that score equals the file-order sublist — which pins the
order down to descending score with ties in file order. -/
theorem search_ranking_C1 (es : List RegistryEntry) (q : String) (otype : Option String)
    (olimit : Option Nat) :
    Registry.search (some (String.mk (renderLines (es.map RegistryEntry.toJson)))) q otype olimit =
      ((sortScored (keptEntries q otype es)).take (olimit.getD 10)).map
        (fun p => RegistryEntry.toJson p.1) ∧
    (sortScored (keptEntries q otype es)).Pairwise (fun a b => b.2 ≤ a.2) ∧
    (∀ s : Nat, (sortScored (keptEntries q otype es)).filter (fun p => p.2 = s) =
      (keptEntries q otype es).filter (fun p => p.2 = s)) ∧
    keptEntries q otype es =
      ((typeFilterT otype es).map fun e => (e, scoreEntryT (strToLower q) e)).filter
        (fun s => 0 < s.2) := by
  refine ⟨?_, sortScored_pairwise _, fun s => sortScored_filter_score _ s, rfl⟩
  rw [search_render]
  unfold searchPure keptEntries
  simp [List.map_map, Function.comp_def]

/-- The trigger contribution to the score as claim C2 states it: +20 when
any trigger contains the query, +60 in total when some trigger equals it. -/
def claimTrigScore (qL : String) (ts : List String) : Nat :=
  if ts.any fun t => (strToLower t) = qL then 60
  else if ts.any fun t => strContainsB (strToLower t) qL then 20
  else 0

/-- The per-entry score under claim C2's reading of the scoring table. -/
def claimScoreEntry (qL : String) (e : RegistryEntry) : Nat :=
  nameScore qL e + (if strContainsB (strToLower e.description) qL then 30 else 0) +
    claimTrigScore qL e.triggers + categoryScore qL e + rootBoost e

/-- C2 counterexample: an entry with triggers ["api", "api"] scores 120
trigger points for query "api" in the source (60 per equal trigger, summed
over the loop), while the claim's rule gives a total of 60. -/
theorem trigger_score_counterexample_C2 :
    scoreEntryT "api" ⟨"skill", "x", "f", "", none, ["api", "api"], none, none, none⟩ = 120 ∧
    claimScoreEntry "api" ⟨"skill", "x", "f", "", none, ["api", "api"], none, none, none⟩ = 60 ∧
    (120 : Nat) ≠ 60 := by
  refine ⟨by decide, by decide, by decide⟩

/-- C2 amended: the trigger rows are additive per trigger — +20 for each
trigger containing the lowercased query plus a further +40 for each trigger
exactly equal to it (+60 per exactly-equal trigger), summed over the
trigger list; the entry's score is the sum of the table rows with this
per-trigger rule, and this is exactly the value the search scoring computes
on the serialized entry (all comparisons on lowercased strings). -/
theorem trigger_contribution_C2 (q : String) (e : RegistryEntry) :
    scoreEntryE (strToLower q) e.toJson = some (scoreEntryT (strToLower q) e) ∧
    scoreEntryT (strToLower q) e = nameScore (strToLower q) e +
      (if strContainsB (strToLower e.description) (strToLower q) then 30 else 0) +
      scoreTriggersT (strToLower q) e.triggers + categoryScore (strToLower q) e + rootBoost e ∧
    ∀ ts : List String, scoreTriggersT (strToLower q) ts =
      (ts.map fun t => (if strContainsB (strToLower t) (strToLower q) then 20 else 0) +
        (if (strToLower t) = (strToLower q) then 40 else 0)).sum := by
  refine ⟨scoreEntryE_toJson _ e, ?_, ?_⟩
  · unfold scoreEntryT nameScore categoryScore rootBoost
    omega
  · intro ts
    induction ts with
    | nil => rfl
    | cons t ts ih =>
        rw [scoreTriggersT, List.map_cons, List.sum_cons, ih]

/-- C5: build(skills, agents) followed immediately by list() returns
exactly the projected entries — one skill entry per skill with its
SKILL.md file path, then one agent entry per agent with its agent.yaml
path, in input order — whatever the file held before. -/
theorem build_list_roundtrip_C5 (skills : List SkillDefinition)
    (agents : List AgentDefinition) (prev : Option String) :
    Registry.list (Registry.build false skills (some agents) prev) =
      (skills.map fun s => (skillEntry s).toJson) ++
        (agents.map fun a => (agentEntry a).toJson) := by
  rw [show Registry.build false skills (some agents) prev =
      some (String.mk (renderLines ((registryEntries skills (some agents)).map
        RegistryEntry.toJson))) from rfl]
  rw [list_of_render _ (fun j hj => by
    rw [List.mem_map] at hj
    obtain ⟨e, _, rfl⟩ := hj
    exact numFree_entryJson e)]
  unfold registryEntries
  simp [List.map_append, List.map_map, Function.comp_def]

/-- C7: a missing or unreadable registry (file state `none`) and a registry
with a malformed line make search and list return the empty list and get
return the null result, with no exception escaping; on a well-formed
registry, get returns the first entry in file order whose name matches the
requested name exactly (null when none does). -/
theorem failure_semantics_C7 :
    (∀ q otype olimit, Registry.search none q otype olimit = []) ∧
    Registry.list none = [] ∧
    (∀ nm, Registry.get none nm = some none) ∧
    (∀ content q otype olimit, (∃ l ∈ readLines content, jsonParse l = none) →
      Registry.search (some content) q otype olimit = [] ∧
      Registry.list (some content) = [] ∧
      ∀ nm, Registry.get (some content) nm = some none) ∧
    (∀ (es : List RegistryEntry) (nm : String),
      Registry.get (some (String.mk (renderLines (es.map RegistryEntry.toJson)))) nm =
        some ((es.find? fun e => e.name = nm).map RegistryEntry.toJson)) := by
  refine ⟨fun q ot ol => rfl, rfl, fun nm => rfl, ?_, ?_⟩
  · intro content q ot ol hmal
    have hfail : parseAllLines content = none := mapM_parse_none _ hmal
    refine ⟨?_, ?_, ?_⟩
    · unfold Registry.search
      simp [hfail]
    · rw [show Registry.list (some content) = (parseAllLines content).getD [] from rfl, hfail]
      rfl
    · intro nm
      rw [show Registry.get (some content) nm =
        findEntryE nm ((parseAllLines content).getD []) from rfl, hfail]
      rfl
  · intro es nm
    unfold Registry.get
    rw [list_of_render _ (fun j hj => by
      rw [List.mem_map] at hj
      obtain ⟨e, _, rfl⟩ := hj
      exact numFree_entryJson e)]
    exact findEntryE_toJson nm es

/-- C7 witness: the concrete file text "oops" has one line that fails to
parse, so search/list/get degrade to empty results; and on a well-formed
one-entry registry, get finds the entry by exact name. -/
theorem failure_semantics_C7_witness :
    Registry.search (some "oops") "auth" none none = [] ∧
    Registry.list (some "oops") = [] ∧
    Registry.get (some "oops") "auth" = some none ∧
    Registry.get (some (String.mk (renderLines ([skillEntry sampleSkill].map
      RegistryEntry.toJson)))) "auth" = some (some (skillEntry sampleSkill).toJson) := by
  have h := failure_semantics_C7.2.2.2.1 "oops" "auth" none none (by decide)
  have h2 := failure_semantics_C7.2.2.2.2 [skillEntry sampleSkill] "auth"
  refine ⟨h.1, h.2.1, h.2.2 "auth", ?_⟩
  rw [h2]
  decide

/-- C9: build in dry-run mode leaves the registry file untouched; in normal
mode the result is a full overwrite independent of the previous contents,
equal to the rendered entry sequence, whose text splits on newlines into
exactly one serialized JSON value per entry followed by the empty segment
created by the trailing newline. -/
theorem build_frame_C9 (skills : List SkillDefinition) (agents : Option (List AgentDefinition))
    (prev : Option String) :
    Registry.build true skills agents prev = prev ∧
    (∀ prev', Registry.build false skills agents prev' = Registry.build false skills agents prev) ∧
    Registry.build false skills agents prev =
      some (String.mk (renderLines ((registryEntries skills agents).map RegistryEntry.toJson))) ∧
    (registryEntries skills agents ≠ [] →
      splitNl (renderLines ((registryEntries skills agents).map RegistryEntry.toJson)) =
        ((registryEntries skills agents).map fun e => stringify e.toJson) ++ [[]]) := by
  refine ⟨rfl, fun prev' => rfl, rfl, fun hne => ?_⟩
  unfold renderLines
  rw [splitNl_joinNl_append _ [] (by simpa using hne) (fun z hz => by
    rw [List.mem_map] at hz
    obtain ⟨j, hj, rfl⟩ := hz
    rw [List.mem_map] at hj
    obtain ⟨e, _, rfl⟩ := hj
    exact stringify_no_nl _ (numFree_entryJson e))]
  simp [splitNl, List.map_map, Function.comp_def]

/-- C9 witness: the frame theorem applied to one concrete skill and no
agents. -/
theorem build_frame_C9_witness :
    splitNl (renderLines ((registryEntries [sampleSkill] none).map RegistryEntry.toJson)) =
      ((registryEntries [sampleSkill] none).map fun e => stringify e.toJson) ++ [[]] :=
  (build_frame_C9 [sampleSkill] none none).2.2.2 (by decide)

/-- C10: with the empty query, every entry scores at least 50 (its name
always contains the empty string), so the positive-score filter drops
nothing and the result is the first `limit` entries of the stable
descending sort of all type-filtered entries. -/
theorem empty_query_matches_all_C10 (es : List RegistryEntry) (otype : Option String)
    (olimit : Option Nat) :
    (∀ e ∈ es, 50 ≤ scoreEntryT "" e) ∧
    ((typeFilterT otype es).map fun e => (e, scoreEntryT "" e)).filter (fun s => 0 < s.2) =
      ((typeFilterT otype es).map fun e => (e, scoreEntryT "" e)) ∧
    Registry.search (some (String.mk (renderLines (es.map RegistryEntry.toJson)))) "" otype olimit =
      ((sortScored ((typeFilterT otype es).map fun e => (e, scoreEntryT "" e))).take
        (olimit.getD 10)).map (fun p => RegistryEntry.toJson p.1) := by
  have hscore : ∀ e : RegistryEntry, 50 ≤ scoreEntryT "" e := scoreEntryT_empty_ge
  have hfilter : ((typeFilterT otype es).map fun e => (e, scoreEntryT "" e)).filter
      (fun s => 0 < s.2) = ((typeFilterT otype es).map fun e => (e, scoreEntryT "" e)) := by
    apply List.filter_eq_self.mpr
    intro p hp
    rw [List.mem_map] at hp
    obtain ⟨e, _, rfl⟩ := hp
    have := hscore e
    simp
    omega
  refine ⟨fun e _ => hscore e, hfilter, ?_⟩
  rw [search_render]
  unfold searchPure
  simp only [show strToLower "" = "" from rfl]
  rw [hfilter]
  simp [List.map_map, Function.comp_def]

/-- C10 witness: the empty-query bound evaluated on a concrete entry. -/
theorem empty_query_matches_all_C10_witness :
    50 ≤ scoreEntryT "" (skillEntry sampleSkill) :=
  (empty_query_matches_all_C10 [skillEntry sampleSkill] none none).1 (skillEntry sampleSkill)
    (by decide)

theorem take_get?_some {α : Type} {l : List α} {n m : Nat} {a : α}
    (h : (l.take n).get? m = some a) : m < n ∧ l.get? m = some a := by
  obtain ⟨hm, _⟩ := List.get?_eq_some.mp h
  rw [List.length_take] at hm
  have hmn : m < n := lt_of_lt_of_le hm (min_le_left _ _)
  exact ⟨hmn, by rw [← List.get?_take hmn]; exact h⟩

theorem sorted_pair_facts {q : String} {otype : Option String} {es : List RegistryEntry}
    {i : Nat} {p : RegistryEntry × Nat}
    (h : (sortScored (keptEntries q otype es)).get? i = some p) :
    p.2 = scoreEntryT (strToLower q) p.1 ∧ p.1 ∈ es ∧ 0 < p.2 := by
  have hmem : p ∈ sortScored (keptEntries q otype es) := List.get?_mem h
  rw [mem_sortScored] at hmem
  exact mem_kept_shape hmem

/-- An entry named "auth" with no other scoring contributions. -/
def cexAuth : RegistryEntry :=
  ⟨"skill", "auth", ".github/skills/auth/SKILL.md", "", none, [], none, none, none⟩

/-- An entry named "oauth-flow" carrying three triggers equal to "auth". -/
def cexOauth : RegistryEntry :=
  ⟨"skill", "oauth-flow", ".github/skills/oauth-flow/SKILL.md", "", none,
    ["auth", "auth", "auth"], none, none, none⟩

/-- C3 counterexample: "auth" matches the query exactly (score 150) but
"oauth-flow", whose name contains the query only as a proper substring,
scores 230 through its triggers and is ranked strictly above it, refuting
the claim as universally stated. -/
theorem exact_name_counterexample_C3 :
    strToLower cexAuth.name = strToLower "auth" ∧
    strToLower cexOauth.name ≠ strToLower "auth" ∧
    strContainsB (strToLower cexOauth.name) (strToLower "auth") = true ∧
    Registry.search (some (String.mk (renderLines ([cexAuth, cexOauth].map RegistryEntry.toJson))))
      "auth" none none = [cexOauth.toJson, cexAuth.toJson] := by
  refine ⟨by decide, by decide, by decide, ?_⟩
  rw [search_render]
  decide

/-- C3 amended: if the registry contains an entry A whose name equals the
query exactly (case-insensitively) and an entry B whose name contains the
query only as a proper substring, and the two entries' non-name score
contributions (description, triggers, category, root boost) are equal —
e.g. both have empty descriptions and no matching triggers — then search
ranks A strictly above B: every result position holding A precedes every
position holding B, and whenever B survives the limit so does A. -/
theorem exact_name_ranking_C3 (es : List RegistryEntry) (q : String) (olimit : Option Nat)
    (A B : RegistryEntry) (hA : A ∈ es) (hB : B ∈ es)
    (hAn : strToLower A.name = strToLower q)
    (hBn : strToLower B.name ≠ strToLower q)
    (hBc : strContainsB (strToLower B.name) (strToLower q) = true)
    (hnn : nonNameScore (strToLower q) A = nonNameScore (strToLower q) B) :
    (∀ i j,
      (Registry.search (some (String.mk (renderLines (es.map RegistryEntry.toJson)))) q none
        olimit).get? i = some A.toJson →
      (Registry.search (some (String.mk (renderLines (es.map RegistryEntry.toJson)))) q none
        olimit).get? j = some B.toJson → i < j) ∧
    (B.toJson ∈ Registry.search (some (String.mk (renderLines (es.map RegistryEntry.toJson)))) q
        none olimit →
      A.toJson ∈ Registry.search (some (String.mk (renderLines (es.map RegistryEntry.toJson)))) q
        none olimit) := by
  have hsA : scoreEntryT (strToLower q) A = 150 + nonNameScore (strToLower q) A := by
    rw [scoreEntryT_decomp]
    unfold nameScore
    rw [hAn, strContains_self]
    simp
  have hsB : scoreEntryT (strToLower q) B = 50 + nonNameScore (strToLower q) B := by
    rw [scoreEntryT_decomp]
    unfold nameScore
    rw [if_neg hBn, hBc]
    simp
  have hlt : scoreEntryT (strToLower q) B < scoreEntryT (strToLower q) A := by omega
  have hres : Registry.search (some (String.mk (renderLines (es.map RegistryEntry.toJson)))) q
      none olimit = ((sortScored (keptEntries q none es)).take (olimit.getD 10)).map
        (fun p => RegistryEntry.toJson p.1) := by
    rw [search_render]
    unfold searchPure keptEntries
    simp [List.map_map, Function.comp_def]
  have extract : ∀ {i : Nat} {E : RegistryEntry},
      (Registry.search (some (String.mk (renderLines (es.map RegistryEntry.toJson)))) q none
        olimit).get? i = some E.toJson →
      ∃ p : RegistryEntry × Nat, i < olimit.getD 10 ∧
        (sortScored (keptEntries q none es)).get? i = some p ∧
        p.2 = scoreEntryT (strToLower q) E := by
    intro i E hi
    rw [hres, List.get?_map] at hi
    obtain ⟨p, hp1, hp2⟩ := Option.map_eq_some'.mp hi
    obtain ⟨hilim, hp3⟩ := take_get?_some hp1
    obtain ⟨hpsc, _, _⟩ := sorted_pair_facts hp3
    exact ⟨p, hilim, hp3, by rw [hpsc]; exact scoreEntryT_congr _ hp2⟩
  constructor
  · intro i j hi hj
    obtain ⟨p, _, hpi, hpw⟩ := extract hi
    obtain ⟨r, _, hrj, hrw⟩ := extract hj
    exact sortScored_score_lt_index _ i j p r hpi hrj (by omega)
  · intro hBmem
    obtain ⟨j, hj⟩ := List.mem_iff_get?.mp hBmem
    obtain ⟨r, hjlim, hrj, hrw⟩ := extract hj
    have hmemA : (A, scoreEntryT (strToLower q) A) ∈ keptEntries q none es := by
      unfold keptEntries typeFilterT
      apply List.mem_filter.mpr
      refine ⟨List.mem_map.mpr ⟨A, hA, rfl⟩, by simp; omega⟩
    rw [← mem_sortScored] at hmemA
    obtain ⟨i0, hi0⟩ := List.mem_iff_get?.mp hmemA
    have hij : i0 < j :=
      sortScored_score_lt_index _ i0 j (A, scoreEntryT (strToLower q) A) r hi0 hrj (by simp; omega)
    have hi0lim : i0 < olimit.getD 10 := lt_trans hij hjlim
    have htake : ((sortScored (keptEntries q none es)).take (olimit.getD 10)).get? i0 =
        some (A, scoreEntryT (strToLower q) A) := by
      rw [List.get?_take hi0lim]
      exact hi0
    apply List.get?_mem (n := i0)
    rw [hres, List.get?_map, htake]
    rfl

/-- C3 witness: with no non-name contributions on either entry, the exact
"auth" entry appears in the concrete search result because the
substring-only "oauth-flow" entry does. -/
def cexOauthPlain : RegistryEntry :=
  ⟨"skill", "oauth-flow", ".github/skills/oauth-flow/SKILL.md", "", none, [], none, none, none⟩

theorem exact_name_ranking_C3_witness :
    cexAuth.toJson ∈ Registry.search
      (some (String.mk (renderLines ([cexAuth, cexOauthPlain].map RegistryEntry.toJson))))
      "auth" none none :=
  (exact_name_ranking_C3 [cexAuth, cexOauthPlain] "auth" none cexAuth cexOauthPlain
    (by decide) (by decide) (by decide) (by decide) (by decide) (by decide)).2
    (by rw [search_render]; decide)

theorem flattenGo_nil (ov : Option (Option Json)) : flattenGo ov [] = [] := by
  rw [flattenGo]

theorem flattenGo_cons_obj {a : Json} (ov : Option (Option Json)) (rest : List Json)
    (h : isObjLike a = true) :
    flattenGo ov (a :: rest) =
      normalizeAgent ov ((subsArr a).filterMap subRefName) a
        :: (flattenGo (some (jsGet a "name")) ((subsArr a).filter isNestedAgent) ++
            flattenGo ov rest) := by
  rw [flattenGo]
  simp [h]

theorem flattenGo_cons_skip {a : Json} (ov : Option (Option Json)) (rest : List Json)
    (h : isObjLike a = false) :
    flattenGo ov (a :: rest) = flattenGo ov rest := by
  rw [flattenGo]
  simp [h]

theorem flattenGo_append (ov : Option (Option Json)) (l1 l2 : List Json) :
    flattenGo ov (l1 ++ l2) = flattenGo ov l1 ++ flattenGo ov l2 := by
  induction l1 with
  | nil => rw [List.nil_append, flattenGo_nil, List.nil_append]
  | cons a rest ih =>
      by_cases h : isObjLike a
      · rw [List.cons_append, flattenGo_cons_obj ov _ h, flattenGo_cons_obj ov rest h, ih]
        simp
      · rw [List.cons_append, flattenGo_cons_skip ov _ (by simpa using h),
          flattenGo_cons_skip ov rest (by simpa using h), ih]

/-- C4 counterexample: a parent node with no `name` field — its own record
is named "unknown", but its nested child's parentAgent is absent (the
source copies the parent's raw `name` value, which is undefined), not
"unknown" — so the child's parentAgent does not equal the enclosing
record's name. -/
theorem flatten_parent_counterexample_C4 :
    (flattenAgents [Json.obj [("subAgents", Json.arr [Json.obj [("name", Json.str "c")]])]]).map
      (fun r => (r.name, r.isSubAgent, r.parentAgent)) =
      [("unknown", false, none), ("c", true, none)] ∧
    (none : Option String) ≠ some "unknown" := by
  constructor
  · simp [flattenAgents, flattenGo, subsArr, subRefName, isNestedAgent, isObjLike,
      normalizeAgent, coerceOr, coerceOpt, coerceStrList, normalizeTools, jsGet,
      jsTruthy, jsToStr, jsTruthyU, List.lookup]
  · decide

/-- C4 amended: flattening is a depth-first pre-order — each object-like
node yields its record, then the flattening of its nested sub-agent
objects, then the remaining siblings, and it distributes over
concatenation; a subAgents element that is an object with a name key
contributes its raw name and is recursed into, a plain string is a name
reference only (not recursed); the parent record's subAgents keeps the
names of both forms in order; each nested record has isSubAgent = true and
parentAgent equal to the enclosing record's name whenever the enclosing
raw node's name is a non-empty string (with a falsy or absent parent name
the child's parentAgent is absent while the parent record is named
"unknown", as the counterexample shows). -/
theorem flatten_preorder_C4 :
    (∀ ov l1 l2, flattenGo ov (l1 ++ l2) = flattenGo ov l1 ++ flattenGo ov l2) ∧
    (∀ (ov : Option (Option Json)) (a : Json) (rest : List Json), isObjLike a = true →
      flattenGo ov (a :: rest) =
        normalizeAgent ov ((subsArr a).filterMap subRefName) a
          :: (flattenGo (some (jsGet a "name")) ((subsArr a).filter isNestedAgent) ++
              flattenGo ov rest)) ∧
    (∀ (ov : Option (Option Json)) (a : Json) (rest : List Json), isObjLike a = false →
      flattenGo ov (a :: rest) = flattenGo ov rest) ∧
    (∀ t : String, subRefName (Json.str t) = some (Json.str t) ∧
      isNestedAgent (Json.str t) = false) ∧
    (∀ (kvs : List (String × Json)) (v : Json), kvs.lookup "name" = some v →
      subRefName (Json.obj kvs) = some v ∧ isNestedAgent (Json.obj kvs) = true) ∧
    (∀ ov names a, (normalizeAgent ov names a).subAgents =
      if names.isEmpty then none else some names) ∧
    (∀ pv names a, (normalizeAgent (some pv) names a).isSubAgent = true ∧
      (normalizeAgent (some pv) names a).parentAgent = coerceOpt pv) ∧
    (∀ (a c : Json) (names₁ names₂ : List Json) (pname : String),
      jsGet a "name" = some (Json.str pname) → pname ≠ "" →
      (normalizeAgent (some (jsGet a "name")) names₂ c).parentAgent =
        some ((normalizeAgent none names₁ a).name)) ∧
    flattenAgents [Json.obj [("name", Json.str "a"),
        ("subAgents", Json.arr [Json.str "b", Json.obj [("name", Json.str "c")]])]] =
      [normalizeAgent none [Json.str "b", Json.str "c"]
        (Json.obj [("name", Json.str "a"),
          ("subAgents", Json.arr [Json.str "b", Json.obj [("name", Json.str "c")]])]),
       normalizeAgent (some (some (Json.str "a"))) [] (Json.obj [("name", Json.str "c")])] ∧
    (normalizeAgent none [Json.str "b", Json.str "c"] (Json.obj [("name", Json.str "a"),
        ("subAgents", Json.arr [Json.str "b", Json.obj [("name", Json.str "c")]])])).subAgents =
      some [Json.str "b", Json.str "c"] ∧
    (normalizeAgent (some (some (Json.str "a"))) [] (Json.obj [("name", Json.str "c")])).parentAgent
      = some "a" := by
  refine ⟨flattenGo_append, fun ov a rest h => flattenGo_cons_obj ov rest h,
    fun ov a rest h => flattenGo_cons_skip ov rest h, ?_, ?_, ?_, ?_, ?_, ?_, ?_, ?_⟩
  · intro t
    exact ⟨rfl, rfl⟩
  · intro kvs v h
    constructor
    · simp [subRefName, h]
    · simp [isNestedAgent, h]
  · intro ov names a
    rfl
  · intro pv names a
    exact ⟨rfl, rfl⟩
  · intro a c names₁ names₂ pname hpn hne
    rw [hpn]
    simp [normalizeAgent, coerceOpt, coerceOr, jsTruthy, jsToStr, hne, hpn]
  · simp [flattenAgents, flattenGo, subsArr, subRefName, isNestedAgent, isObjLike,
      jsGet, List.lookup]
  · simp [normalizeAgent]
  · simp [normalizeAgent, coerceOpt, jsTruthy, jsToStr]

/-- C4 witness: the parent-name clause applied to a parent literally named
"a" and a nested child. -/
theorem flatten_preorder_C4_witness :
    (normalizeAgent (some (jsGet (Json.obj [("name", Json.str "a")]) "name")) []
      (Json.obj [("name", Json.str "c")])).parentAgent =
      some ((normalizeAgent none [] (Json.obj [("name", Json.str "a")])).name) :=
  flatten_preorder_C4.2.2.2.2.2.2.2.1 (Json.obj [("name", Json.str "a")])
    (Json.obj [("name", Json.str "c")]) [] [] "a" (by decide) (by decide)

/-- C6 counterexample: a node whose name field is present and is a string —
the empty string — still normalizes to "unknown" (the source tests
truthiness, not presence-and-stringness), and a truthy non-string name is
String-coerced rather than defaulted: a numeric name 42 yields "42". -/
theorem name_default_counterexample_C6 :
    (flattenAgents [Json.obj [("name", Json.str "")]]).map (fun r => r.name) = ["unknown"] ∧
    ("unknown" : String) ≠ "" ∧
    (flattenAgents [Json.obj [("name", Json.num 42)]]).map (fun r => r.name) = ["42"] ∧
    ("42" : String) ≠ "unknown" := by
  refine ⟨?_, by decide, ?_, by decide⟩
  · simp [flattenAgents, flattenGo, subsArr, subRefName, isNestedAgent, isObjLike,
      normalizeAgent, coerceOr, coerceOpt, coerceStrList, normalizeTools, jsGet,
      jsTruthy, jsToStr, jsTruthyU, List.lookup]
  · simp [flattenAgents, flattenGo, subsArr, subRefName, isNestedAgent, isObjLike,
      normalizeAgent, coerceOr, coerceOpt, coerceStrList, normalizeTools, jsGet,
      jsTruthy, jsToStr, jsTruthyU, List.lookup]
    decide

/-- C6 amended: a record's name is String(raw name) when the raw name value
is truthy, and the literal "unknown" exactly when the name field is absent
or falsy — which includes the empty string, 0, false and null, even though
an empty string is a present string value; a raw node with no fields
normalizes to name "unknown". -/
theorem name_coercion_C6 (a : Json) (rest : List Json) (ha : isObjLike a = true) :
    (∃ r tail, flattenGo none (a :: rest) = r :: tail ∧
      r.name = coerceOr (jsGet a "name") "unknown") ∧
    (∀ s, jsGet a "name" = some (Json.str s) →
      coerceOr (jsGet a "name") "unknown" = if s = "" then "unknown" else s) ∧
    (jsGet a "name" = none → coerceOr (jsGet a "name") "unknown" = "unknown") ∧
    (∀ v, jsGet a "name" = some v → jsTruthy v = true →
      coerceOr (jsGet a "name") "unknown" = jsToStr v) ∧
    (∀ v, jsGet a "name" = some v → jsTruthy v = false →
      coerceOr (jsGet a "name") "unknown" = "unknown") ∧
    flattenAgents [Json.obj []] = [normalizeAgent none [] (Json.obj [])] ∧
    (normalizeAgent none [] (Json.obj [])).name = "unknown" := by
  refine ⟨⟨normalizeAgent none ((subsArr a).filterMap subRefName) a,
      flattenGo (some (jsGet a "name")) ((subsArr a).filter isNestedAgent) ++
        flattenGo none rest,
      flattenGo_cons_obj none rest ha, rfl⟩, ?_, ?_, ?_, ?_, ?_, ?_⟩
  · intro s h
    rw [h]
    by_cases hs : s = "" <;> simp [coerceOr, jsTruthy, jsToStr, hs]
  · intro h
    rw [h]
    rfl
  · intro v h hv
    rw [h]
    simp [coerceOr, hv]
  · intro v h hv
    rw [h]
    simp [coerceOr, hv]
  · simp [flattenAgents, flattenGo, subsArr, isObjLike, jsGet]
  · simp [normalizeAgent, coerceOr, jsGet, List.lookup]

/-- C6 witness: the name clause applied to a node with the non-empty string
name "auth". -/
theorem name_coercion_C6_witness :
    coerceOr (jsGet (Json.obj [("name", Json.str "auth")]) "name") "unknown" =
      if ("auth" : String) = "" then "unknown" else "auth" :=
  (name_coercion_C6 (Json.obj [("name", Json.str "auth")]) [] (by decide)).2.1 "auth" (by decide)

/-- Spec-side record counter for the amended C8: one record per object-like
input element, plus, recursively, the records of its nested sub-agent
objects; non-object elements count for nothing. -/
def recordCount : List Json → Nat
  | [] => 0
  | a :: rest =>
    (if h : isObjLike a then 1 + recordCount ((subsArr a).filter isNestedAgent) else 0) +
      recordCount rest
termination_by l => sizeOf l
decreasing_by
  · have h1 := sizeOf_filter_le isNestedAgent (subsArr e)
    have h2 := subsArr_sizeOf e h
    simp
    omega
  · simp

theorem flattenGo_length : ∀ (agents : List Json) (ov : Option (Option Json)),
    (flattenGo ov agents).length = recordCount agents
  | [], ov => by rw [flattenGo_nil, recordCount]; rfl
  | a :: rest, ov => by
      by_cases h : isObjLike a
      · rw [flattenGo_cons_obj ov rest h, recordCount]
        simp only [List.length_cons, List.length_append, h, dif_pos]
        rw [flattenGo_length ((subsArr a).filter isNestedAgent) (some (jsGet a "name")),
          flattenGo_length rest ov]
        omega
      · rw [flattenGo_cons_skip ov rest (by simpa using h), recordCount,
          flattenGo_length rest ov]
        simp [h]
termination_by agents _ => sizeOf agents
decreasing_by
  · have h1 := sizeOf_filter_le isNestedAgent (subsArr a)
    have h2 := subsArr_sizeOf a h
    simp
    omega
  · simp
  · simp

/-- C8 counterexample: an input array with one string element: flattening
produces no record at all for it (the element is skipped), refuting "a
best-effort record for each input element". -/
theorem fail_soft_counterexample_C8 :
    flattenAgents [Json.str "agent"] = [] ∧
    [Json.str "agent"].length = 1 ∧
    (flattenAgents [Json.str "agent"]).length ≠ 1 := by
  have h : flattenAgents [Json.str "agent"] = [] := by
    simp [flattenAgents, flattenGo, isObjLike]
  exact ⟨h, rfl, by rw [h]; decide⟩

/-- C8 amended: the normalizer is total on arbitrary JSON input (it never
raises), and it produces exactly one record per object-like element
(objects and arrays — JS typeof calls both "object"), recursively
including each nested sub-agent object carrying a name key, while
non-object elements (strings, numbers, booleans, null) are skipped rather
than given a record; normalizeTools produces one best-effort tool per
element of an array input and the empty list on any non-array input. -/
theorem fail_soft_C8 :
    (∀ (ov : Option (Option Json)) (agents : List Json),
      (flattenGo ov agents).length = recordCount agents) ∧
    (∀ agents : List Json, (flattenAgents agents).length = recordCount agents) ∧
    (∀ agents : List Json, (∀ a ∈ agents, isObjLike a = false) → flattenAgents agents = []) ∧
    (∀ xs : List Json, normalizeTools (some (Json.arr xs)) = xs.map normalizeTool) ∧
    (∀ tl : Option Json, (∀ xs : List Json, tl ≠ some (Json.arr xs)) →
      normalizeTools tl = []) ∧
    (∀ t : String, normalizeTool (Json.str t) =
      { name := String.mk (t.data.takeWhile fun c => c != ' '), command := t,
        description := t }) := by
  refine ⟨fun ov agents => flattenGo_length agents ov,
    fun agents => flattenGo_length agents none, ?_, fun xs => rfl, ?_,
    fun t => rfl⟩
  · intro agents h
    unfold flattenAgents
    induction agents with
    | nil => exact flattenGo_nil none
    | cons a rest ih =>
        rw [flattenGo_cons_skip none rest (h a (by simp))]
        exact ih (fun x hx => h x (by simp [hx]))
  · intro tl htl
    match tl with
    | none => rfl
    | some Json.null => rfl
    | some (Json.bool b) => rfl
    | some (Json.num n) => rfl
    | some (Json.str s) => rfl
    | some (Json.obj kvs) => rfl
    | some (Json.arr xs) => exact absurd rfl (htl xs)

/-- C8 witness: a mixed array of non-object elements flattens to no
records, and normalizeTools on a concrete non-array (numeric) tools value
yields the empty list. -/
theorem fail_soft_C8_witness :
    flattenAgents [Json.str "x", Json.num 1, Json.null, Json.bool true] = [] ∧
    normalizeTools (some (Json.num 5)) = [] :=
  ⟨fail_soft_C8.2.2.1 [Json.str "x", Json.num 1, Json.null, Json.bool true] (by decide),
   fail_soft_C8.2.2.2.2.1 (some (Json.num 5)) (by intro xs h; simp at h)⟩

/-- C1 witness: the ranking equation evaluated on a concrete one-entry
registry. -/
theorem search_ranking_C1_witness :
    Registry.search (some (String.mk (renderLines ([skillEntry sampleSkill].map
        RegistryEntry.toJson)))) "auth" none none =
      ((sortScored (keptEntries "auth" none [skillEntry sampleSkill])).take 10).map
        (fun p => RegistryEntry.toJson p.1) :=
  (search_ranking_C1 [skillEntry sampleSkill] "auth" none none).1

/-- C2 witness: the per-trigger sum evaluated on a concrete trigger list. -/
theorem trigger_contribution_C2_witness :
    scoreTriggersT (strToLower "API") ["auth", "api"] =
      (["auth", "api"].map fun t => (if strContainsB (strToLower t) (strToLower "API")
        then 20 else 0) + (if (strToLower t) = (strToLower "API") then 40 else 0)).sum :=
  (trigger_contribution_C2 "API" (skillEntry sampleSkill)).2.2 ["auth", "api"]

/-- C5 witness: the roundtrip evaluated on one concrete skill and agent. -/
theorem build_list_roundtrip_C5_witness :
    Registry.list (Registry.build false [sampleSkill] (some [sampleAgent]) none) =
      ([sampleSkill].map fun s => (skillEntry s).toJson) ++
        ([sampleAgent].map fun a => (agentEntry a).toJson) :=
  build_list_roundtrip_C5 [sampleSkill] [sampleAgent] none
